import Mathlib

set_option autoImplicit false

/-!
Shallow embedding of the core of the `wrike-api-101` repository: the
hierarchical folder/project tree builder (`wrike/wrike/folder_project.py`)
and the paginated audit-log aggregator (`wrike/wrike/audit_log.py`), together
with the JSON flatten/unflatten utilities (`wrike/core/toolkit.py`).

Python dictionaries are modelled as association lists updated in place
(`upsert` replaces the value of an existing key, keeping its position, and
otherwise appends, exactly like `d[k] = v` on a CPython dict).  Python
functions that can raise are modelled with `Option`: `none` stands for the
raised exception.  Unbounded recursion / `while True` loops take an explicit
`fuel` argument and return `none` when the fuel runs out, so a `some` result
proves the Python call terminates (within `fuel` steps / depth).
-/

/-- `d[k] = v` on a Python dict: replace the value of an existing key in
place, otherwise append the new pair at the end. -/
def upsert {κ α : Type} [DecidableEq κ] : List (κ × α) → κ → α → List (κ × α)
  | [], k, v => [(k, v)]
  | (k', v') :: rest, k, v =>
    if k' = k then (k', v) :: rest else (k', v') :: upsert rest k v

/-- `d.get(k)` on a Python dict (first matching key). -/
def alookup {κ α : Type} [DecidableEq κ] : List (κ × α) → κ → Option α
  | [], _ => none
  | (k', v') :: rest, k => if k' = k then some v' else alookup rest k

/-- `d.keys()` of the dict model. -/
def akeys {κ α : Type} (l : List (κ × α)) : List κ := l.map Prod.fst

/-- `k in d` on a Python dict. -/
def hasKey {κ α : Type} [DecidableEq κ] (l : List (κ × α)) (k : κ) : Bool :=
  (alookup l k).isSome

/-- `d.update(other)` on a Python dict: upsert every pair of `other` in order. -/
def aupdate {κ α : Type} [DecidableEq κ] (d other : List (κ × α)) : List (κ × α) :=
  other.foldl (fun acc kv => upsert acc kv.1 kv.2) d

/-! ## Audit log aggregator (`wrike/wrike/audit_log.py`) -/

/-- The `details` column of an audit-log entry: either a dict mapping a label
to a free-text description, or some non-dict value. -/
inductive Details where
  | dict (kvs : List (String × String))
  | nondict (v : String)
  deriving DecidableEq, Repr

/-- One audit-log record (one DataFrame row): the non-`details` columns are
kept opaque as a column-name/value dict, plus the `details` column. -/
structure Entry where
  other : List (String × String)
  details : Details
  deriving DecidableEq, Repr

/-- One output row of `reframe_audit_log`: the copied non-`details` columns
plus the `event` (detail key) and `description` (detail value) columns. -/
structure ExplodedRow where
  other : List (String × String)
  event : String
  description : String
  deriving DecidableEq, Repr

/-- The dict payload of a `details` value, when it is a dict. -/
def detailsDict : Details → Option (List (String × String))
  | .dict kvs => some kvs
  | .nondict _ => none

/-- `reframe_audit_log` (audit_log.py lines 203-231): keep only the rows whose
`details` is a dict, then for each kept row emit one output row per key of its
`details` dict (in dict order), copying the other columns unchanged, and
concatenate everything in row order.  When no row survives the filter,
`exploded_df.tolist()` is empty and `pd.concat([])` raises `ValueError`
(modelled as `none`). -/
def reframe_audit_log (rows : List Entry) : Option (List ExplodedRow) :=
  let df := rows.filter (fun r => (detailsDict r.details).isSome)
  if df.isEmpty then none
  else some (df.map (fun r =>
    ((detailsDict r.details).getD []).map
      (fun kv => ExplodedRow.mk r.other kv.1 kv.2))).flatten

/-- One HTTP response of the page-fetch collaborator (`wrike_get` with
`return_response=True`): status code, the `data` list and the
`nextPageToken` field of the response JSON (`none` when absent). -/
structure Response where
  status : Nat
  data : List Entry
  nextPageToken : Option String
  deriving DecidableEq

/-- Result of one `get_audit_log_subset` call: `(None, None)` on a 401, 400
or other non-200 status, else the page entries and the continuation token. -/
inductive FetchResult where
  | err
  | ok (entries : List Entry) (next : Option String)
  deriving DecidableEq

/-- The status handling of `get_audit_log_subset` (audit_log.py lines
123-142). -/
def get_audit_log_subset (resp : Response) : FetchResult :=
  if resp.status = 401 then .err
  else if resp.status = 400 then .err
  else if resp.status ≠ 200 then .err
  else .ok resp.data resp.nextPageToken

/-- A value stored in the `params` dict of `get_audit_log_subset`. -/
inductive PVal where
  | nat (n : Nat)
  | str (s : String)
  | strs (l : List String)
  | jsonDate (kvs : List (String × String))
  deriving DecidableEq

/-- Python truthiness of an optional string (`None` and `''` are falsy). -/
def pyTruthyStr : Option String → Bool
  | none => false
  | some s => decide (s ≠ "")

/-- Python truthiness of an optional dict (`None` and `{}` are falsy). -/
def pyTruthyDict : Option (List (String × String)) → Bool
  | none => false
  | some l => decide (l ≠ [])

/-- The `params` dict built by `get_audit_log_subset` (audit_log.py lines
110-121): always `pageSize`; if the continuation token is truthy only
`nextPageToken` is added, otherwise the `eventDate` (JSON-encoded) and
`operations` filters are added when truthy.  A `None` operations argument is
modelled as `[]` (both are falsy). -/
def subsetParams (next_page_token : Option String)
    (event_date : Option (List (String × String))) (operations : List String)
    (page_size : Nat) : List (String × PVal) :=
  let params := [("pageSize", PVal.nat page_size)]
  if pyTruthyStr next_page_token then
    upsert params "nextPageToken" (PVal.str (next_page_token.getD ""))
  else
    let params' :=
      if pyTruthyDict event_date then
        upsert params "eventDate" (PVal.jsonDate (event_date.getD []))
      else params
    if operations ≠ [] then upsert params' "operations" (PVal.strs operations)
    else params'

/-- Final value of a `get_complete_audit_log` call. -/
inductive AggResult where
  | ok (entries : List Entry)
  | okReframed (rows : List ExplodedRow)
  | typeError
  | reframeError
  deriving DecidableEq

/-- State of the aggregation loop when it stops: the concatenated entries,
whether the `len(subset)` progress print raised `TypeError` (it evaluates
`len(None)` when a fetch failed and `verbose` is on, audit_log.py line 178,
before the `subset is None` check on line 180), and the `params` dict of
every request issued, in order. -/
structure LoopOut where
  entries : List Entry
  raised : Bool
  requests : List (List (String × PVal))
  deriving DecidableEq

/-- The `while True` loop of `get_complete_audit_log` (audit_log.py lines
176-193).  `responses i` is the collaborator's response to the `i`-th request
(the loop counter `i` of the source equals the 0-based request index).  One
unit of fuel is spent per fetch; `none` means the fuel ran out. -/
def agg_loop (responses : Nat → Response)
    (event_date : Option (List (String × String))) (operations : List String)
    (page_size : Nat) (max_iterations : Option Nat) (verbose : Bool) :
    Nat → Nat → Option String → List Entry → List (List (String × PVal)) →
    Option LoopOut
  | 0, _, _, _, _ => none
  | fuel + 1, i, tok, acc, reqs =>
    let req := subsetParams tok event_date operations page_size
    let reqs' := reqs ++ [req]
    match get_audit_log_subset (responses i) with
    | .err => some ⟨acc, verbose, reqs'⟩
    | .ok entries next =>
      let acc' := acc ++ entries
      if !pyTruthyStr next then some ⟨acc', false, reqs'⟩
      else
        match max_iterations with
        | some m =>
          if i + 1 ≥ m then some ⟨acc', false, reqs'⟩
          else agg_loop responses event_date operations page_size
            max_iterations verbose fuel (i + 1) next acc' reqs'
        | none =>
          agg_loop responses event_date operations page_size max_iterations
            verbose fuel (i + 1) next acc' reqs'

/-- `get_complete_audit_log` (audit_log.py lines 145-200): run the paging
loop from an absent token, then optionally pipe the result through
`reframe_audit_log`.  Returns the final result together with the list of
issued request parameter dicts; `none` means the loop ran longer than
`fuel` fetches. -/
def get_complete_audit_log (responses : Nat → Response)
    (event_date : Option (List (String × String))) (operations : List String)
    (page_size : Nat) (max_iterations : Option Nat) (reframe : Bool)
    (verbose : Bool) (fuel : Nat) :
    Option (AggResult × List (List (String × PVal))) :=
  match agg_loop responses event_date operations page_size max_iterations
      verbose fuel 0 none [] [] with
  | none => none
  | some out =>
    if out.raised then some (.typeError, out.requests)
    else if reframe then
      match reframe_audit_log out.entries with
      | some rows => some (.okReframed rows, out.requests)
      | none => some (.reframeError, out.requests)
    else some (.ok out.entries, out.requests)

/-- The value `get_complete_audit_log` hands back to the caller (requests
trace projected away). -/
def runResult (responses : Nat → Response)
    (event_date : Option (List (String × String))) (operations : List String)
    (page_size : Nat) (max_iterations : Option Nat) (reframe : Bool)
    (verbose : Bool) (fuel : Nat) : Option AggResult :=
  (get_complete_audit_log responses event_date operations page_size
    max_iterations reframe verbose fuel).map Prod.fst

/-- `es i ++ es (i+1) ++ ... ++ es (i+k-1)`: concatenation of `k`
consecutive pages. -/
def joinRange (es : Nat → List Entry) : Nat → Nat → List Entry
  | _, 0 => []
  | i, k + 1 => es i ++ joinRange es (i + 1) k

/-- The explode transform as the specification words it: every entry, in
order, contributes one row per key of its `details` dict (in dict order) with
the other fields copied unchanged, and zero rows when `details` is not a
dict. -/
def explodeSpec (rows : List Entry) : List ExplodedRow :=
  (rows.map (fun e =>
    match e.details with
    | .dict kvs => kvs.map (fun kv => ExplodedRow.mk e.other kv.1 kv.2)
    | .nondict _ => [])).flatten

/-! ## Hierarchy builder (`wrike/wrike/folder_project.py`) -/

/-- One folder/project record (a Python dict).  A `none` in an `Option` field
models that key being absent from the dict. -/
structure Folder where
  id : String
  title : String
  childIds : Option (List String)
  parent : Option (List (String × String))
  child : Option (List (String × String))
  level : Option Nat
  deriving DecidableEq, Repr

/-- `{item['id']: item['title'] for item in folder_data}`. -/
def idToTitle (fd : List Folder) : List (String × String) :=
  fd.foldl (fun m r => upsert m r.id r.title) []

/-- The `parent` dict `process_item` writes: `{parent_id: title}` when
`parent_id` is truthy, else `{}` (folder_project.py lines 94-96). -/
def mkParent (idTitle : List (String × String)) (pid : String) :
    List (String × String) :=
  if pid ≠ "" then [(pid, (alookup idTitle pid).getD "")] else []

/-- `next((child for child in folder_data if child['id'] == child_id), None)`
followed by the in-place `parent` write of `process_item`: overwrite the
`parent` of the first record whose id matches; no-op when there is none
(folder_project.py lines 99-104). -/
def assignParent (idTitle : List (String × String)) (pid cid : String) :
    List Folder → List Folder
  | [] => []
  | r :: rs =>
    if r.id = cid then { r with parent := some (mkParent idTitle pid) } :: rs
    else r :: assignParent idTitle pid cid rs

/-- `add_parent_kv` (folder_project.py lines 72-106): for every record with a
present, nonempty `childIds`, for every listed child id, overwrite the
`parent` of the (first) record carrying that id.  The outer iteration reads
only `id` and `childIds`, which the parent writes never touch, so folding the
writes over the original `(id, childIds)` pairs is faithful to the in-place
version. -/
def add_parent_kv (fd : List Folder) : List Folder :=
  let idTitle := idToTitle fd
  (fd.map (fun r => (r.id, r.childIds))).foldl
    (fun acc pc =>
      match pc.2 with
      | none => acc
      | some cids =>
        if cids = [] then acc
        else cids.foldl (fun acc2 cid => assignParent idTitle pc.1 cid acc2) acc)
    fd

/-- `add_child_kv` (folder_project.py lines 17-43): give every record a
`child` dict mapping each id of its `childIds` to that record's title (empty
string when the id is unknown) and delete the `childIds` key. -/
def add_child_kv (fd : List Folder) : List Folder :=
  let idTitle := idToTitle fd
  fd.map (fun r =>
    { r with
      child := some ((r.childIds.getD []).foldl
        (fun m cid => upsert m cid ((alookup idTitle cid).getD "")) []),
      childIds := none })

/-- `{folder['id']: folder for folder in folder_data}`; on a duplicated id the
dict keeps the last record, like a Python dict comprehension. -/
def idToFolder (fd : List Folder) : List (String × Folder) :=
  fd.foldl (fun m r => upsert m r.id r) []

/-- `assign_level` (folder_project.py lines 109-139): set the record's
`level`, then recurse with `level + 1` into every key of its `child` dict
that exists in `id_to_folder`.  The record objects are shared with
`id_to_folder`, and every read and write is keyed by id, so the mutated
state is modelled as an id -> level dict.  `fuel` bounds the recursion
depth; `none` models the `RecursionError` the unguarded Python recursion
hits on a cyclic hierarchy. -/
def assign_level (i2f : List (String × Folder)) :
    Nat → String → Nat → List (String × Nat) → Option (List (String × Nat))
  | 0, _, _, _ => none
  | fuel + 1, fid, level, lv =>
    let lv1 := upsert lv fid level
    let childKeys :=
      match alookup i2f fid with
      | some r => akeys (r.child.getD [])
      | none => []
    childKeys.foldlM
      (fun acc cid =>
        if hasKey i2f cid then assign_level i2f fuel cid (level + 1) acc
        else pure acc)
      lv1

/-- `add_level` (folder_project.py lines 46-69): build `id_to_folder`, call
`assign_level` with level 0 on every record whose `parent` is falsy (absent
or empty), and return the records carrying the levels written through the
shared objects: the computed level when the record's id was visited, else
whatever `level` it had before (absent on fresh API data). -/
def add_level (fuel : Nat) (fd : List Folder) : Option (List Folder) :=
  let i2f := idToFolder fd
  match fd.foldlM
      (fun lv r =>
        if pyTruthyDict r.parent then pure lv
        else assign_level i2f fuel r.id 0 lv)
      ([] : List (String × Nat)) with
  | none => none
  | some lv =>
    some (fd.map (fun r =>
      match alookup lv r.id with
      | some n => { r with level := some n }
      | none => r))

/-- `folder_level_map` (folder_project.py lines 473-495):
`{folder['id']: folder['level'] for folder in folder_metadata}`.  Accessing
the `level` key of a record that has none raises `KeyError`, modelled as
`none`. -/
def folder_level_map (fd : List Folder) : Option (List (String × Nat)) :=
  fd.foldlM
    (fun m r =>
      match r.level with
      | some n => pure (upsert m r.id n)
      | none => none)
    []

/-- The hierarchy pipeline of `get_folder_or_project_metadata`
(folder_project.py lines 631-638): parent links, then child links, then
levels. -/
def build_hierarchy (fuel : Nat) (fd : List Folder) : Option (List Folder) :=
  add_level fuel (add_child_kv (add_parent_kv fd))

/-- The record ids of a record set, in order. -/
def idsOf (fd : List Folder) : List String := fd.map Folder.id

/-- The child-reference graph of a record set: `edgeTo fd p c` holds when
some record with id `p` lists `c` in its `childIds` and a record with id `c`
exists. -/
def edgeTo (fd : List Folder) (p c : String) : Prop :=
  (∃ r ∈ fd, r.id = p ∧ c ∈ r.childIds.getD []) ∧ c ∈ idsOf fd

/-- Nonempty-path reachability in the child-reference graph. -/
inductive ReachPlus (fd : List Folder) : String → String → Prop
  | base {p c : String} : edgeTo fd p c → ReachPlus fd p c
  | step {p b c : String} : ReachPlus fd p b → edgeTo fd b c → ReachPlus fd p c

/-- Reachability allowing the empty path. -/
def ReachStar (fd : List Folder) (p c : String) : Prop :=
  p = c ∨ ReachPlus fd p c

/-- No cycles in the child-reference graph. -/
def AcyclicChildGraph (fd : List Folder) : Prop :=
  ∀ x, ¬ ReachPlus fd x x

/-- Every id is referenced as a child at most once across the whole record
set (a forest of single-parent nodes). -/
def SingleParent (fd : List Folder) : Prop :=
  (fd.map (fun r => r.childIds.getD [])).flatten.Nodup

/-- A path `x = x₀ → x₁ → ... → x_k = y` of length `k` in the child graph. -/
inductive PathLen (fd : List Folder) : String → String → Nat → Prop
  | refl (x : String) : PathLen fd x x 0
  | step {x p y : String} {k : Nat} :
      PathLen fd x p k → edgeTo fd p y → PathLen fd x y (k + 1)

/-- A root id: a record id never referenced as a child of an existing
record. -/
def IsRootId (fd : List Folder) (x : String) : Prop :=
  x ∈ idsOf fd ∧ ∀ p, ¬ edgeTo fd p x

/-! ## JSON flatten/unflatten (`wrike/core/toolkit.py`) -/

/-- Python strings, modelled as character lists so that the key
concatenation of `flatten_json` and the `str.split` of `unflatten_json`
stay structurally tractable. -/
abbrev Str := List Char

/-- A JSON value: a scalar (opaque payload), a dict, a list, or `None` (the
padding value `insert` appends into lists). -/
inductive JVal where
  | scalar (s : Str)
  | obj (kvs : List (Str × JVal))
  | arr (items : List JVal)
  | null

/-- Whether a value is a dict (`isinstance(value, dict)`). -/
def JVal.isObj : JVal → Bool
  | .obj _ => true
  | _ => false

/-- Whether a value is a scalar. -/
def JVal.isScalar : JVal → Bool
  | .scalar _ => true
  | _ => false

/-- Python `str.isdigit`: nonempty and all digits. -/
def pyIsDigit (s : Str) : Bool := !s.isEmpty && s.all Char.isDigit

/-- Python `int(s)` on a digit string. -/
def pyInt (s : Str) : Nat :=
  s.foldl (fun acc c => 10 * acc + (c.toNat - '0'.toNat)) 0

/-- Python `str(n)` / f-string rendering of a nonnegative int (decimal). -/
def natRepr (n : Nat) : Str :=
  if n = 0 then ['0'] else ((Nat.digits 10 n).map Nat.digitChar).reverse

/-- Python `s.split(sep)`: scan left to right, cutting at each occurrence of
`sep`.  `acc` holds the current piece reversed.  (With an empty `sep` the
source raises `ValueError`; `unflatten_json` guards for that case.) -/
def pySplitAux (sep : Str) : Str → Str → List Str
  | acc, [] => [acc.reverse]
  | acc, c :: rest =>
    if List.isPrefixOf sep (c :: rest) then
      acc.reverse :: pySplitAux sep [] (List.drop (sep.length - 1) rest)
    else pySplitAux sep (c :: acc) rest
termination_by _ s => s.length
decreasing_by
  · simp only [List.length_cons, List.length_drop]
    omega
  · simp only [List.length_cons]
    omega

/-- Python `s.split(sep)`. -/
def pySplit (sep s : Str) : List Str := pySplitAux sep [] s

mutual
/-- The item loop of `flatten_json` (toolkit.py lines 78-100): fold the dict
items in order into the accumulator `flattened`, recursing (from a fresh
accumulator, then merging with `flattened.update`) into dict values and into
lists all of whose items are dicts, and writing every other value as a leaf
under the accumulated key. -/
def flattenItems (sep : Str) (ignoreKeys : List Str) :
    List (Str × JVal) → Str → List (Str × JVal) → List (Str × JVal)
  | [], _, flattened => flattened
  | (k, v) :: rest, parentKey, flattened =>
    let newKey := if parentKey ≠ [] then parentKey ++ sep ++ k else k
    let flattened' :=
      if k ∈ ignoreKeys then upsert flattened newKey v
      else
        match v with
        | .obj sub => aupdate flattened (flattenItems sep ignoreKeys sub newKey [])
        | .arr items =>
          if items.all JVal.isObj then
            flattenArrItems sep ignoreKeys items 0 newKey flattened
          else upsert flattened newKey (.arr items)
        | .scalar s => upsert flattened newKey (.scalar s)
        | .null => upsert flattened newKey .null
    flattenItems sep ignoreKeys rest parentKey flattened'

/-- The `enumerate(value)` loop of `flatten_json` for a list of dicts
(toolkit.py lines 90-92): merge the flattening of each item under the key
extended with the running index.  The guard of the caller ensures every item
is a dict; a non-dict item contributes nothing (unreachable). -/
def flattenArrItems (sep : Str) (ignoreKeys : List Str) :
    List JVal → Nat → Str → List (Str × JVal) → List (Str × JVal)
  | [], _, _, flattened => flattened
  | .obj sub :: rest, idx, newKey, flattened =>
    flattenArrItems sep ignoreKeys rest (idx + 1) newKey
      (aupdate flattened
        (flattenItems sep ignoreKeys sub (newKey ++ sep ++ natRepr idx) []))
  | .scalar _ :: rest, idx, newKey, flattened =>
    flattenArrItems sep ignoreKeys rest (idx + 1) newKey flattened
  | .arr _ :: rest, idx, newKey, flattened =>
    flattenArrItems sep ignoreKeys rest (idx + 1) newKey flattened
  | .null :: rest, idx, newKey, flattened =>
    flattenArrItems sep ignoreKeys rest (idx + 1) newKey flattened
end

/-- `flatten_json` (toolkit.py lines 44-100), on a dict, with the argument
order of the source (`ignore_keys=None` is modelled as `[]`). -/
def flatten_json (data : List (Str × JVal)) (parentKey sep : Str)
    (ignoreKeys : List Str) : List (Str × JVal) :=
  flattenItems sep ignoreKeys data parentKey []

/-- `while len(d) <= key: d.append(pad)` on a Python list. -/
def padTo (xs : List JVal) (n : Nat) (pad : JVal) : List JVal :=
  xs ++ List.replicate (n + 1 - xs.length) pad

/-- `insert` (toolkit.py lines 152-179): walk the split key path into the
nested structure, creating `[]`/`{}` containers and `None` paddings exactly
as the source does, and write the value at the end of the path.  Indexing a
list with a non-digit key or a dict with a digit key is a type confusion on
which the source raises (or silently corrupts a dict with an int key); the
embedding returns `none` there.  An empty path cannot arise (`str.split`
never returns an empty list). -/
def insertPath : JVal → List Str → JVal → Option JVal
  | d, [k], v =>
    if pyIsDigit k then
      match d with
      | .arr xs => some (.arr ((padTo xs (pyInt k) .null).set (pyInt k) v))
      | _ => none
    else
      match d with
      | .obj kvs => some (.obj (upsert kvs k v))
      | _ => none
  | d, k :: k2 :: ks, v =>
    let placeholder : JVal := if pyIsDigit k2 then .arr [] else .obj []
    if pyIsDigit k then
      match d with
      | .arr xs =>
        let xs' := padTo xs (pyInt k) placeholder
        match insertPath (xs'.getD (pyInt k) placeholder) (k2 :: ks) v with
        | some inner => some (.arr (xs'.set (pyInt k) inner))
        | none => none
      | _ => none
    else
      match d with
      | .obj kvs =>
        let cur := (alookup kvs k).getD placeholder
        match insertPath cur (k2 :: ks) v with
        | some inner => some (.obj (upsert kvs k inner))
        | none => none
      | _ => none
  | _, [], _ => none

/-- `unflatten_json` (toolkit.py lines 297-312): split every key of the flat
dict on the separator and insert its value along that path into an initially
empty dict.  An empty separator makes `str.split` raise `ValueError`
(modelled as `none`). -/
def unflatten_json (flat : List (Str × JVal)) (sep : Str) : Option JVal :=
  if sep = [] then none
  else flat.foldlM (fun d kv => insertPath d (pySplit sep kv.1) kv.2) (.obj [])

/-- A key allowed by claim C10: a nonempty string containing no occurrence
of the separator and not composed solely of digits. -/
def goodKey (sep k : Str) : Bool :=
  !k.isEmpty && !(decide (sep <:+: k)) && !pyIsDigit k

mutual
/-- Claim C10's shape condition on values: a scalar, a nested dict of the
same shape, a list of such dicts, or a list of scalars. -/
def goodVal (sep : Str) : JVal → Bool
  | .scalar _ => true
  | .obj kvs => goodObj sep kvs
  | .arr items => goodArrObjs sep items || items.all JVal.isScalar
  | .null => false

/-- Claim C10's condition on dicts: every key is good and unrepeated, every
value is good. -/
def goodObj (sep : Str) : List (Str × JVal) → Bool
  | [] => true
  | (k, v) :: rest =>
    goodKey sep k && !(hasKey rest k) && goodVal sep v && goodObj sep rest

/-- A list of good dicts. -/
def goodArrObjs (sep : Str) : List JVal → Bool
  | [] => true
  | .obj kvs :: rest => goodObj sep kvs && goodArrObjs sep rest
  | _ => false
end

mutual
/-- The shape condition of the amended claim C10: like `goodVal`, with every
nested dict and every list additionally nonempty. -/
def tightVal (sep : Str) : JVal → Bool
  | .scalar _ => true
  | .obj kvs => !kvs.isEmpty && tightObj sep kvs
  | .arr items =>
    !items.isEmpty && (tightArrObjs sep items || items.all JVal.isScalar)
  | .null => false

/-- Dicts of the amended claim C10: good unrepeated keys, tight values. -/
def tightObj (sep : Str) : List (Str × JVal) → Bool
  | [] => true
  | (k, v) :: rest =>
    goodKey sep k && !(hasKey rest k) && tightVal sep v && tightObj sep rest

/-- A list of nonempty tight dicts. -/
def tightArrObjs (sep : Str) : List JVal → Bool
  | [] => true
  | .obj kvs :: rest => !kvs.isEmpty && tightObj sep kvs && tightArrObjs sep rest
  | _ => false
end

mutual
/-- The leaf bindings of a value as component paths (specification-side view
of `flatten_json` with no ignore keys): a scalar or a not-all-dict list is a
leaf at the empty relative path, a dict prefixes each inner path with its
key, a list of dicts prefixes with the rendered index. -/
def pathsVal : JVal → List (List Str × JVal)
  | .scalar s => [([], .scalar s)]
  | .obj kvs => pathsObj kvs
  | .arr items =>
    if items.all JVal.isObj then pathsArr items 0 else [([], .arr items)]
  | .null => [([], .null)]

/-- Leaf bindings of a dict: for each item in order, the value's bindings
under the item's key. -/
def pathsObj : List (Str × JVal) → List (List Str × JVal)
  | [] => []
  | (k, v) :: rest =>
    (pathsVal v).map (fun pv => (k :: pv.1, pv.2)) ++ pathsObj rest

/-- Leaf bindings of a list of dicts, indexed from `idx`. -/
def pathsArr : List JVal → Nat → List (List Str × JVal)
  | [], _ => []
  | item :: rest, idx =>
    (match item with
     | .obj sub => (pathsObj sub).map (fun pv => (natRepr idx :: pv.1, pv.2))
     | _ => []) ++ pathsArr rest (idx + 1)
end

/-- Folding `insertPath` over a list of path/value bindings. -/
def insertMany (d : JVal) (l : List (List Str × JVal)) : Option JVal :=
  l.foldlM (fun acc pv => insertPath acc pv.1 pv.2) d

/-- Claim C2's conclusion on a built hierarchy: every child-graph edge whose
parent end is reachable from a root has the child's level one more than the
parent's, and every record with a falsy (absent or empty) `parent` mapping
has level 0.  `fd` is the input record set (whose `childIds` define the
graph), `out` the pipeline output. -/
def LevelInvariant (fd : List Folder) (out : List Folder) : Prop :=
  (∀ p c rp rc, edgeTo fd p c →
    (∃ r0, IsRootId fd r0 ∧ ReachStar fd r0 p) →
    rp ∈ out → rc ∈ out → rp.id = p → rc.id = c →
    ∃ n, rp.level = some n ∧ rc.level = some (n + 1)) ∧
  (∀ r ∈ out, pyTruthyDict r.parent = false → r.level = some 0)

/-- `next((child for child in l if child['id'] == x), None)`: the first
record with a given id. -/
def findRec : List Folder → String → Option Folder
  | [], _ => none
  | r :: rs, x => if r.id = x then some r else findRec rs x

/-- The id of the first record whose child list references `x`, over the
`(id, childIds)` pairs `add_parent_kv` iterates. -/
def refPid : List (String × Option (List String)) → String → Option String
  | [], _ => none
  | (pid, oc) :: rest, x => if x ∈ oc.getD [] then some pid else refPid rest x

/-- Joining path components with a separator (what the nested key
concatenation of `flatten_json` produces). -/
def joinSep (sep : Str) : List Str → Str
  | [] => []
  | [p] => p
  | p :: ps => p ++ sep ++ joinSep sep ps

/-- The flat key `flatten_json` renders for a leaf at relative component
path `p` under the accumulated parent key: the chained
`parent_key + sep + key` concatenation of the source. -/
def encodeKey (sep parent : Str) (p : List Str) : Str :=
  if parent ≠ [] then parent ++ sep ++ joinSep sep p else joinSep sep p

/-- Rendering a list of component-path bindings to flat key bindings. -/
def encodePaths (sep parent : Str) (l : List (List Str × JVal)) :
    List (Str × JVal) :=
  l.map (fun pv => (encodeKey sep parent pv.1, pv.2))

/-! ## Theorems -/

theorem joinRange_succ (es : Nat → List Entry) (i k : Nat) :
    joinRange es i (k + 1) = es i ++ joinRange es (i + 1) k := rfl

theorem joinRange_one (es : Nat → List Entry) (i : Nat) :
    joinRange es i 1 = es i := by
  simp [joinRange]

/-- A run of the paging loop with no iteration cap over `k` successful pages
whose last token is falsy returns the accumulated entries plus the `k` pages,
without raising. -/
theorem agg_loop_ok_pages (responses : Nat → Response)
    (ed : Option (List (String × String))) (ops : List String) (ps : Nat)
    (vb : Bool) (es : Nat → List Entry) (tk : Nat → Option String) :
    ∀ (k fuel i : Nat) (tok : Option String) (acc : List Entry)
      (reqs : List (List (String × PVal))),
      1 ≤ k →
      (∀ j, j < k →
        get_audit_log_subset (responses (i + j)) = .ok (es (i + j)) (tk (i + j))) →
      (∀ j, j + 1 < k → pyTruthyStr (tk (i + j)) = true) →
      pyTruthyStr (tk (i + (k - 1))) = false →
      k ≤ fuel →
      ∃ rl, agg_loop responses ed ops ps none vb fuel i tok acc reqs =
        some ⟨acc ++ joinRange es i k, false, rl⟩ := by
  intro k
  induction k with
  | zero => omega
  | succ k ih =>
    intro fuel i tok acc reqs _ hok htrue hlast hfuel
    obtain ⟨fuel, rfl⟩ : ∃ f, fuel = f + 1 := ⟨fuel - 1, by omega⟩
    have h0 := hok 0 (by omega)
    simp only [Nat.add_zero] at h0
    rcases Nat.eq_zero_or_pos k with rfl | hk
    · simp only [Nat.add_sub_cancel, Nat.add_zero] at hlast
      refine ⟨reqs ++ [subsetParams tok ed ops ps], ?_⟩
      simp [agg_loop, h0, hlast, joinRange_one]
    · have ht0 : pyTruthyStr (tk i) = true := by
        have := htrue 0 (by omega)
        simpa using this
      have hrec := ih fuel (i + 1) (tk i) (acc ++ es i)
        (reqs ++ [subsetParams tok ed ops ps])
        (by omega)
        (fun j hj => by
          have := hok (j + 1) (by omega)
          simpa [Nat.add_assoc, Nat.add_comm 1 j] using this)
        (fun j hj => by
          have := htrue (j + 1) (by omega)
          simpa [Nat.add_assoc, Nat.add_comm 1 j] using this)
        (by
          have : i + 1 + (k - 1) = i + (k + 1 - 1) := by omega
          rw [this]
          exact hlast)
        (by omega)
      obtain ⟨rl, hrl⟩ := hrec
      refine ⟨rl, ?_⟩
      simp only [agg_loop, h0, ht0, joinRange_succ]
      simpa [List.append_assoc] using hrl

/-- C4: for a page source that returns N successful pages, each nonempty,
with a truthy continuation token on pages 1..N-1 and an absent token on page
N, `get_complete_audit_log` with `max_iterations` absent returns exactly the
concatenation of the N pages' entries, in fetch order. -/
theorem c4_complete_pagination (responses : Nat → Response)
    (ed : Option (List (String × String))) (ops : List String) (ps : Nat)
    (vb : Bool) (es : Nat → List Entry) (tk : Nat → Option String)
    (N fuel : Nat)
    (hN : 1 ≤ N)
    (hok : ∀ j, j < N → get_audit_log_subset (responses j) = .ok (es j) (tk j))
    (_hne : ∀ j, j < N → es j ≠ [])
    (htrue : ∀ j, j + 1 < N → pyTruthyStr (tk j) = true)
    (hlast : tk (N - 1) = none)
    (hfuel : N ≤ fuel) :
    runResult responses ed ops ps none false vb fuel =
      some (.ok (joinRange es 0 N)) := by
  obtain ⟨rl, hrl⟩ := agg_loop_ok_pages responses ed ops ps vb es tk N fuel
    0 none [] []
    hN (fun j hj => by simpa using hok j hj)
    (fun j hj => by simpa using htrue j hj)
    (by simp [hlast, pyTruthyStr])
    hfuel
  simp [runResult, get_complete_audit_log, hrl]

/-- Witness for C4 at a concrete two-page source. -/
theorem c4_complete_pagination_witness :
    runResult
      (fun i => if i = 0 then ⟨200, [⟨[("id", "1")], .nondict ""⟩], some "t"⟩
                else ⟨200, [⟨[("id", "2")], .nondict ""⟩], none⟩)
      none [] 100 none false false 2 =
      some (.ok (joinRange
        (fun i => if i = 0 then [⟨[("id", "1")], .nondict ""⟩]
                  else [⟨[("id", "2")], .nondict ""⟩]) 0 2)) := by
  exact c4_complete_pagination _ none [] 100 false _
    (fun i => if i = 0 then some "t" else none) 2 2
    (by decide) (by decide) (by decide)
    (by intro j hj; have hj0 : j = 0 := (by omega); subst hj0; decide)
    (by decide) (by decide)

/-- A run of the paging loop over an always-successful, always-continuing
source with the iteration cap `r` fetches away stops after exactly `r`
fetches with the entries of those `r` pages appended. -/
theorem agg_loop_capped (responses : Nat → Response)
    (ed : Option (List (String × String))) (ops : List String) (ps : Nat)
    (vb : Bool) (es : Nat → List Entry) (tk : Nat → Option String)
    (hok : ∀ j, get_audit_log_subset (responses j) = .ok (es j) (tk j))
    (htrue : ∀ j, pyTruthyStr (tk j) = true) :
    ∀ (r fuel i : Nat) (tok : Option String) (acc : List Entry)
      (reqs : List (List (String × PVal))),
      1 ≤ r → r ≤ fuel →
      ∃ rl, agg_loop responses ed ops ps (some (i + r)) vb fuel i tok acc reqs =
        some ⟨acc ++ joinRange es i r, false, rl⟩ := by
  intro r
  induction r with
  | zero => omega
  | succ r ih =>
    intro fuel i tok acc reqs _ hfuel
    obtain ⟨fuel, rfl⟩ : ∃ f, fuel = f + 1 := ⟨fuel - 1, by omega⟩
    rcases Nat.eq_zero_or_pos r with rfl | hr
    · refine ⟨reqs ++ [subsetParams tok ed ops ps], ?_⟩
      simp [agg_loop, hok i, htrue i, joinRange_one]
    · have hrec := ih fuel (i + 1) (tk i) (acc ++ es i)
        (reqs ++ [subsetParams tok ed ops ps]) (by omega) (by omega)
      obtain ⟨rl, hrl⟩ := hrec
      refine ⟨rl, ?_⟩
      have hm : i + 1 + r = i + (r + 1) := by omega
      rw [hm] at hrl
      simp only [agg_loop, hok i, htrue i, joinRange_succ]
      have hlt : ¬ (i + 1 ≥ i + (r + 1)) := by omega
      simpa [hlt, List.append_assoc] using hrl

/-- C5: for a page source that always returns a successful page with a
truthy continuation token (an infinite feed) and any positive `k`,
`get_complete_audit_log` with `max_iterations = k` terminates and returns
exactly the concatenation of the entries of the first `k` pages, in fetch
order. -/
theorem c5_early_stop (responses : Nat → Response)
    (ed : Option (List (String × String))) (ops : List String) (ps : Nat)
    (vb : Bool) (es : Nat → List Entry) (tk : Nat → Option String)
    (k fuel : Nat)
    (hok : ∀ j, get_audit_log_subset (responses j) = .ok (es j) (tk j))
    (htrue : ∀ j, pyTruthyStr (tk j) = true)
    (hk : 1 ≤ k) (hfuel : k ≤ fuel) :
    runResult responses ed ops ps (some k) false vb fuel =
      some (.ok (joinRange es 0 k)) := by
  obtain ⟨rl, hrl⟩ := agg_loop_capped responses ed ops ps vb es tk hok htrue
    k fuel 0 none [] [] hk hfuel
  rw [Nat.zero_add] at hrl
  simp [runResult, get_complete_audit_log, hrl]

/-- Witness for C5 at a concrete infinite feed and `k = 2`. -/
theorem c5_early_stop_witness :
    runResult (fun i => ⟨200, [⟨[("i", toString i)], .nondict ""⟩], some "t"⟩)
      none [] 100 (some 2) false false 5 =
      some (.ok (joinRange (fun i => [⟨[("i", toString i)], .nondict ""⟩]) 0 2)) := by
  exact c5_early_stop _ none [] 100 false _ (fun _ => some "t") 2 5
    (fun j => rfl) (fun j => rfl) (by decide) (by decide)

/-- A run of the paging loop that sees `k` successful, truthy-token pages and
then a failed fetch (and whose iteration cap, if any, does not stop it before
the failure) stops at the failure: it keeps the `k` pages accumulated so far,
and the progress print raises exactly when `verbose` is on. -/
theorem agg_loop_err_page (responses : Nat → Response)
    (ed : Option (List (String × String))) (ops : List String) (ps : Nat)
    (mi : Option Nat) (vb : Bool) (es : Nat → List Entry)
    (tk : Nat → Option String) :
    ∀ (k fuel i : Nat) (tok : Option String) (acc : List Entry)
      (reqs : List (List (String × PVal))),
      (∀ j, j < k →
        get_audit_log_subset (responses (i + j)) = .ok (es (i + j)) (tk (i + j))) →
      (∀ j, j < k → pyTruthyStr (tk (i + j)) = true) →
      get_audit_log_subset (responses (i + k)) = .err →
      (∀ m, mi = some m → i + k < m) →
      k + 1 ≤ fuel →
      ∃ rl, agg_loop responses ed ops ps mi vb fuel i tok acc reqs =
        some ⟨acc ++ joinRange es i k, vb, rl⟩ := by
  intro k
  induction k with
  | zero =>
    intro fuel i tok acc reqs _ _ herr _ hfuel
    obtain ⟨fuel, rfl⟩ : ∃ f, fuel = f + 1 := ⟨fuel - 1, by omega⟩
    rw [Nat.add_zero] at herr
    refine ⟨reqs ++ [subsetParams tok ed ops ps], ?_⟩
    simp [agg_loop, herr, joinRange]
  | succ k ih =>
    intro fuel i tok acc reqs hok htrue herr hcap hfuel
    obtain ⟨fuel, rfl⟩ : ∃ f, fuel = f + 1 := ⟨fuel - 1, by omega⟩
    have h0 := hok 0 (by omega)
    rw [Nat.add_zero] at h0
    have ht0 := htrue 0 (by omega)
    rw [Nat.add_zero] at ht0
    have hrec := ih fuel (i + 1) (tk i) (acc ++ es i)
      (reqs ++ [subsetParams tok ed ops ps])
      (fun j hj => by
        have := hok (j + 1) (by omega)
        simpa [Nat.add_assoc, Nat.add_comm 1 j] using this)
      (fun j hj => by
        have := htrue (j + 1) (by omega)
        simpa [Nat.add_assoc, Nat.add_comm 1 j] using this)
      (by
        have : i + 1 + k = i + (k + 1) := by omega
        rw [this]
        exact herr)
      (fun m hm => by have := hcap m hm; omega)
      (by omega)
    obtain ⟨rl, hrl⟩ := hrec
    refine ⟨rl, ?_⟩
    simp only [agg_loop, h0, ht0, joinRange_succ]
    cases mi with
    | none => simpa [List.append_assoc] using hrl
    | some m =>
      have hlt : ¬ (i + 1 ≥ m) := by have := hcap m rfl; omega
      simpa [hlt, List.append_assoc] using hrl

/-- C9: in a run of `get_complete_audit_log` whose `(k+1)`-th page fetch
fails (returns the `None, None` error value) after `k` successful pages,
`verbose=True` makes the progress print raise `TypeError` (from `len(None)`)
before the error-handling branch is reached, while the graceful
stop-and-return-partial path is taken when `verbose=False`. -/
theorem c9_verbose_len_none_raises (responses : Nat → Response)
    (ed : Option (List (String × String))) (ops : List String) (ps : Nat)
    (mi : Option Nat) (reframe : Bool) (es : Nat → List Entry)
    (tk : Nat → Option String) (k fuel : Nat)
    (hok : ∀ j, j < k →
      get_audit_log_subset (responses j) = .ok (es j) (tk j))
    (htrue : ∀ j, j < k → pyTruthyStr (tk j) = true)
    (herr : get_audit_log_subset (responses k) = .err)
    (hcap : ∀ m, mi = some m → k < m)
    (hfuel : k + 1 ≤ fuel) :
    runResult responses ed ops ps mi reframe true fuel = some .typeError ∧
    runResult responses ed ops ps mi false false fuel =
      some (.ok (joinRange es 0 k)) := by
  constructor
  · obtain ⟨rl, hrl⟩ := agg_loop_err_page responses ed ops ps mi true es tk
      k fuel 0 none [] []
      (fun j hj => by simpa using hok j hj)
      (fun j hj => by simpa using htrue j hj)
      (by simpa using herr)
      (fun m hm => by have := hcap m hm; omega) hfuel
    simp [runResult, get_complete_audit_log, hrl]
  · obtain ⟨rl, hrl⟩ := agg_loop_err_page responses ed ops ps mi false es tk
      k fuel 0 none [] []
      (fun j hj => by simpa using hok j hj)
      (fun j hj => by simpa using htrue j hj)
      (by simpa using herr)
      (fun m hm => by have := hcap m hm; omega) hfuel
    simp [runResult, get_complete_audit_log, hrl]

/-- Witness for C9: one good page, then a 401. -/
theorem c9_verbose_len_none_raises_witness :
    runResult
      (fun i => if i = 0 then ⟨200, [⟨[("id", "1")], .nondict ""⟩], some "t"⟩
                else ⟨401, [], none⟩)
      none [] 100 none false true 3 = some .typeError ∧
    runResult
      (fun i => if i = 0 then ⟨200, [⟨[("id", "1")], .nondict ""⟩], some "t"⟩
                else ⟨401, [], none⟩)
      none [] 100 none false false 3 =
      some (.ok (joinRange
        (fun i => if i = 0 then [⟨[("id", "1")], .nondict ""⟩] else []) 0 1)) := by
  exact c9_verbose_len_none_raises _ none [] 100 none false _
    (fun i => if i = 0 then some "t" else none) 1 3
    (by decide) (by decide) (by decide) (by intro m hm; cases hm) (by decide)

/-- C1, counterexample: a source whose second fetch fails with a 401 yields
exactly the same return value as a source that ends cleanly after the same
first page — the partial result carries no failure signal distinguishing it
from a successful complete result, contradicting the claim. -/
theorem c1_counterexample :
    runResult
      (fun i => if i = 0 then ⟨200, [⟨[("id", "1")], .nondict ""⟩], some "t"⟩
                else ⟨401, [], none⟩)
      none [] 100 none false false 3 =
    runResult
      (fun i => if i = 0 then ⟨200, [⟨[("id", "1")], .nondict ""⟩], none⟩
                else ⟨200, [], none⟩)
      none [] 100 none false false 3 ∧
    get_audit_log_subset
      ((fun i => if i = 0 then ⟨200, [⟨[("id", "1")], .nondict ""⟩], some "t"⟩
                 else (⟨401, [], none⟩ : Response)) 1) = .err ∧
    get_audit_log_subset
      ((fun i => if i = 0 then ⟨200, [⟨[("id", "1")], .nondict ""⟩], none⟩
                 else (⟨200, [], none⟩ : Response)) 1) ≠ .err := by
  refine ⟨?_, by decide, by decide⟩
  decide

/-- C1, amended: when a page fetch fails after `k` successful pages (and
`verbose` is off, see C9), the paging loop terminates and the partial result
accumulated so far is returned as a plain `ok` value — the same shape a
fully successful aggregation returns, with no failure indicator attached. -/
theorem c1_error_returns_plain_partial (responses : Nat → Response)
    (ed : Option (List (String × String))) (ops : List String) (ps : Nat)
    (mi : Option Nat) (es : Nat → List Entry) (tk : Nat → Option String)
    (k fuel : Nat)
    (hok : ∀ j, j < k →
      get_audit_log_subset (responses j) = .ok (es j) (tk j))
    (htrue : ∀ j, j < k → pyTruthyStr (tk j) = true)
    (herr : get_audit_log_subset (responses k) = .err)
    (hcap : ∀ m, mi = some m → k < m)
    (hfuel : k + 1 ≤ fuel) :
    runResult responses ed ops ps mi false false fuel =
      some (.ok (joinRange es 0 k)) := by
  obtain ⟨rl, hrl⟩ := agg_loop_err_page responses ed ops ps mi false es tk
    k fuel 0 none [] []
    (fun j hj => by simpa using hok j hj)
    (fun j hj => by simpa using htrue j hj)
    (by simpa using herr)
    (fun m hm => by have := hcap m hm; omega) hfuel
  simp [runResult, get_complete_audit_log, hrl]

/-- Witness for the amended C1: one good page, then a 400. -/
theorem c1_error_returns_plain_partial_witness :
    runResult
      (fun i => if i = 0 then ⟨200, [⟨[("id", "9")], .nondict ""⟩], some "u"⟩
                else ⟨400, [], none⟩)
      none [] 100 none false false 4 =
      some (.ok (joinRange
        (fun i => if i = 0 then [⟨[("id", "9")], .nondict ""⟩] else []) 0 1)) := by
  exact c1_error_returns_plain_partial _ none [] 100 none _
    (fun i => if i = 0 then some "u" else none) 1 4
    (by decide) (by decide) (by decide) (by intro m hm; cases hm) (by decide)

/-- With a truthy continuation token, `get_audit_log_subset` sends only the
page size and the token. -/
theorem subsetParams_token (t : String) (ht : t ≠ "")
    (ed : Option (List (String × String))) (ops : List String) (ps : Nat) :
    subsetParams (some t) ed ops ps =
      [("pageSize", PVal.nat ps), ("nextPageToken", PVal.str t)] := by
  simp [subsetParams, pyTruthyStr, ht, upsert]


/-- A continuation request (truthy token) carries neither the `eventDate`
nor the `operations` filter. -/
theorem subsetParams_token_noFilters (tok : Option String)
    (ht : pyTruthyStr tok = true) (ed : Option (List (String × String)))
    (ops : List String) (ps : Nat) :
    hasKey (subsetParams tok ed ops ps) "eventDate" = false ∧
      hasKey (subsetParams tok ed ops ps) "operations" = false := by
  cases tok with
  | none => simp [pyTruthyStr] at ht
  | some t =>
    have ht' : t ≠ "" := by simpa [pyTruthyStr] using ht
    rw [subsetParams_token t ht' ed ops ps]
    constructor <;> simp [hasKey, alookup]

/-- Every completed paging run's request list is the request for the entry
token followed only by continuation requests, which carry neither the
`eventDate` nor the `operations` filter. -/
theorem agg_loop_requests (responses : Nat → Response)
    (ed : Option (List (String × String))) (ops : List String) (ps : Nat)
    (mi : Option Nat) (vb : Bool) :
    ∀ (fuel i : Nat) (tok : Option String) (acc : List Entry)
      (reqs : List (List (String × PVal))) (out : LoopOut),
      agg_loop responses ed ops ps mi vb fuel i tok acc reqs = some out →
      ∃ rest, out.requests = reqs ++ subsetParams tok ed ops ps :: rest ∧
        ∀ r ∈ rest, hasKey r "eventDate" = false ∧
          hasKey r "operations" = false := by
  intro fuel
  induction fuel with
  | zero => intro i tok acc reqs out h; simp [agg_loop] at h
  | succ fuel ih =>
    intro i tok acc reqs out h
    rw [agg_loop] at h
    rcases hf : get_audit_log_subset (responses i) with _ | ⟨entries, next⟩ <;>
      rw [hf] at h
    · simp only [Option.some.injEq] at h
      exact ⟨[], by simp [← h], by simp⟩
    · simp only at h
      by_cases hn : pyTruthyStr next
      · simp only [hn, Bool.not_true, Bool.false_eq_true, if_false] at h
        have hcont : ∀ hrec : agg_loop responses ed ops ps mi vb fuel (i + 1)
              next (acc ++ entries) (reqs ++ [subsetParams tok ed ops ps]) =
              some out,
            ∃ rest, out.requests = reqs ++ subsetParams tok ed ops ps :: rest ∧
              ∀ r ∈ rest, hasKey r "eventDate" = false ∧
                hasKey r "operations" = false := by
          intro hrec
          obtain ⟨rest', hr', hall⟩ := ih (i + 1) next (acc ++ entries)
            (reqs ++ [subsetParams tok ed ops ps]) out hrec
          refine ⟨subsetParams next ed ops ps :: rest', ?_, ?_⟩
          · simpa using hr'
          · intro r hr
            rcases List.mem_cons.mp hr with rfl | hr
            · exact subsetParams_token_noFilters next hn ed ops ps
            · exact hall r hr
        rcases mi with _ | m
        · exact hcont h
        · simp only at h
          by_cases hm : i + 1 ≥ m
          · simp only [hm, if_true, Option.some.injEq] at h
            exact ⟨[], by simp [← h], by simp⟩
          · simp only [hm, if_false] at h
            exact hcont h
      · simp only [hn, Bool.not_false, if_true, Option.some.injEq] at h
        exact ⟨[], by simp [← h], by simp⟩

/-- C8: a `get_audit_log_subset` call with a (truthy) continuation token
sends only the page size and the token — the `eventDate` and `operations`
filters are omitted even when supplied — and consequently, in any completed
`get_complete_audit_log` run, the first request is built from the absent
token (with the filters, when supplied) and every later request carries
neither filter. -/
theorem c8_filters_only_on_first_request (t : String) (ht : t ≠ "")
    (responses : Nat → Response) (ed : Option (List (String × String)))
    (ops : List String) (ps : Nat) (mi : Option Nat) (reframe vb : Bool)
    (fuel : Nat) (out : AggResult × List (List (String × PVal)))
    (hrun : get_complete_audit_log responses ed ops ps mi reframe vb fuel =
      some out) :
    subsetParams (some t) ed ops ps =
      [("pageSize", PVal.nat ps), ("nextPageToken", PVal.str t)] ∧
    out.2.head? = some (subsetParams none ed ops ps) ∧
    ∀ r ∈ out.2.drop 1, hasKey r "eventDate" = false ∧
      hasKey r "operations" = false := by
  refine ⟨subsetParams_token t ht ed ops ps, ?_⟩
  unfold get_complete_audit_log at hrun
  rcases hl : agg_loop responses ed ops ps mi vb fuel 0 none [] [] with _ | lout <;>
    rw [hl] at hrun
  · cases hrun
  · obtain ⟨rest, hreq, hall⟩ :=
      agg_loop_requests responses ed ops ps mi vb fuel 0 none [] [] lout hl
    have hout2 : out.2 = lout.requests := by
      simp only at hrun
      by_cases hr : lout.raised
      · simp only [hr, if_true, Option.some.injEq] at hrun
        rw [← hrun]
      · simp only [hr, Bool.false_eq_true, if_false] at hrun
        by_cases hrf : reframe
        · simp only [hrf, if_true] at hrun
          rcases hrr : reframe_audit_log lout.entries with _ | rows <;>
              rw [hrr] at hrun <;>
            simp only [Option.some.injEq] at hrun <;> rw [← hrun]
        · simp only [hrf, Bool.false_eq_true, if_false, Option.some.injEq] at hrun
          rw [← hrun]
    rw [hout2, hreq]
    refine ⟨rfl, ?_⟩
    simpa using hall

/-- Witness for C8 at a concrete two-page run with both filters supplied. -/
theorem c8_filters_only_on_first_request_witness :
    subsetParams (some "t") (some [("start", "s")]) ["TaskCreated"] 50 =
      [("pageSize", PVal.nat 50), ("nextPageToken", PVal.str "t")] ∧
    (AggResult.ok [],
      [subsetParams none (some [("start", "s")]) ["TaskCreated"] 50,
       subsetParams (some "t") (some [("start", "s")]) ["TaskCreated"] 50]).2.head? =
      some (subsetParams none (some [("start", "s")]) ["TaskCreated"] 50) ∧
    ∀ r ∈ (AggResult.ok [],
      [subsetParams none (some [("start", "s")]) ["TaskCreated"] 50,
       subsetParams (some "t") (some [("start", "s")]) ["TaskCreated"] 50]).2.drop 1,
      hasKey r "eventDate" = false ∧ hasKey r "operations" = false := by
  exact c8_filters_only_on_first_request "t" (by decide)
    (fun i => if i = 0 then ⟨200, [], some "t"⟩ else ⟨200, [], none⟩)
    (some [("start", "s")]) ["TaskCreated"] 50 none false false 3
    (AggResult.ok [],
      [subsetParams none (some [("start", "s")]) ["TaskCreated"] 50,
       subsetParams (some "t") (some [("start", "s")]) ["TaskCreated"] 50])
    (by decide)

/-- `detailsDict` on a dict value. -/
theorem detailsDict_dict (kvs : List (String × String)) :
    detailsDict (.dict kvs) = some kvs := rfl

/-- `detailsDict` on a non-dict value. -/
theorem detailsDict_nondict (v : String) : detailsDict (.nondict v) = none := rfl

/-- `explodeSpec` unfolded one entry. -/
theorem explodeSpec_cons (e : Entry) (rest : List Entry) :
    explodeSpec (e :: rest) =
      (match e.details with
       | .dict kvs => kvs.map (fun kv => ExplodedRow.mk e.other kv.1 kv.2)
       | .nondict _ => []) ++ explodeSpec rest := rfl

/-- The filtered, per-row exploded frames of `reframe_audit_log`, once
concatenated, are exactly the specification's explode: one row per detail
key per dict-details entry, in entry order, and nothing for the rest. -/
theorem explode_filter_eq (rows : List Entry) :
    ((rows.filter (fun r => (detailsDict r.details).isSome)).map
      (fun r => ((detailsDict r.details).getD []).map
        (fun kv => ExplodedRow.mk r.other kv.1 kv.2))).flatten =
    explodeSpec rows := by
  induction rows with
  | nil => rfl
  | cons r rest ih =>
    rw [explodeSpec_cons, List.filter_cons]
    cases hd : r.details with
    | dict kvs =>
      simp only [hd, detailsDict_dict, Option.isSome_some, if_true,
        List.map_cons, List.flatten_cons, Option.getD_some]
      rw [ih]
    | nondict v =>
      simp only [hd, detailsDict_nondict, Option.isSome_none,
        Bool.false_eq_true, if_false, List.nil_append]
      rw [ih]

/-- C6, amended: provided at least one entry's `details` is a dict,
`reframe_audit_log` emits, for each entry whose `details` is a dict with m
keys, exactly m rows (one per key, in dict order, with the non-details
fields copied unchanged), zero rows for each entry whose `details` is not a
dict, processing entries in their original order; in total, one row per
(dict-details entry, key) pair.  (When no entry has dict `details` the
source instead raises, see the counterexample.) -/
theorem c6_explode_rows (rows : List Entry)
    (h : ∃ r ∈ rows, (detailsDict r.details).isSome = true) :
    reframe_audit_log rows = some (explodeSpec rows) ∧
    (explodeSpec rows).length =
      (rows.map (fun e =>
        match e.details with
        | .dict kvs => kvs.length
        | .nondict _ => 0)).sum := by
  constructor
  · unfold reframe_audit_log
    obtain ⟨r, hr, hsome⟩ := h
    have hne : rows.filter (fun r => (detailsDict r.details).isSome) ≠ [] := by
      intro hemp
      have : r ∈ rows.filter (fun r => (detailsDict r.details).isSome) :=
        List.mem_filter.mpr ⟨hr, hsome⟩
      rw [hemp] at this
      cases this
    simp only [List.isEmpty_iff, hne, if_false]
    rw [explode_filter_eq]
  · unfold explodeSpec
    rw [List.length_flatten, List.map_map]
    congr 1
    apply List.map_congr_left
    intro e _
    cases hde : e.details <;> simp [Function.comp, hde]

/-- Witness for the amended C6 on a three-entry collection. -/
theorem c6_explode_rows_witness :
    reframe_audit_log
      [⟨[("id", "1")], .dict [("k", "v"), ("k2", "v2")]⟩,
       ⟨[("id", "2")], .nondict "x"⟩,
       ⟨[("id", "3")], .dict []⟩] =
      some (explodeSpec
        [⟨[("id", "1")], .dict [("k", "v"), ("k2", "v2")]⟩,
         ⟨[("id", "2")], .nondict "x"⟩,
         ⟨[("id", "3")], .dict []⟩]) ∧
    (explodeSpec
        [⟨[("id", "1")], .dict [("k", "v"), ("k2", "v2")]⟩,
         ⟨[("id", "2")], .nondict "x"⟩,
         ⟨[("id", "3")], .dict []⟩]).length =
      ([⟨[("id", "1")], .dict [("k", "v"), ("k2", "v2")]⟩,
        ⟨[("id", "2")], .nondict "x"⟩,
        (⟨[("id", "3")], .dict []⟩ : Entry)].map (fun e =>
          match e.details with
          | .dict kvs => kvs.length
          | .nondict _ => 0)).sum := by
  exact c6_explode_rows _ ⟨_, List.mem_cons_self _ _, by decide⟩

/-- C6, counterexample: on a collection none of whose entries has dict
`details` the claim promises zero emitted rows, but `reframe_audit_log`
raises (`pd.concat` on no objects) instead of returning the empty output. -/
theorem c6_counterexample :
    reframe_audit_log [⟨[("id", "1")], .nondict "x"⟩] = none ∧
    explodeSpec [⟨[("id", "1")], .nondict "x"⟩] = [] := by
  constructor <;> rfl

/-- A strictly increasing rank along edges bounds nonempty-path
reachability. -/
theorem reachPlus_rank {fd : List Folder} {rank : String → Nat}
    (hrank : ∀ p c, edgeTo fd p c → rank p < rank c) :
    ∀ {p c}, ReachPlus fd p c → rank p < rank c := by
  intro p c h
  induction h with
  | base h => exact hrank _ _ h
  | step hpb hbc ih => exact lt_trans ih (hrank _ _ hbc)

/-- A record set whose child graph admits a strictly increasing rank is
acyclic. -/
theorem acyclic_of_rank {fd : List Folder} (rank : String → Nat)
    (hrank : ∀ p c, edgeTo fd p c → rank p < rank c) :
    AcyclicChildGraph fd :=
  fun _ hx => lt_irrefl _ (reachPlus_rank hrank hx)

/-- C3: on a record set whose first record is referenced by nobody,
`add_parent_kv` leaves that record without any `parent` key at all (its
`parent` stays absent, not an empty dict), while the referenced record gets
one — the function's own docstring promises every record a `parent` key,
with an empty dict for roots. -/
theorem c3_unreferenced_record_has_no_parent_key :
    (add_parent_kv
      [⟨"A", "ta", some ["B"], none, none, none⟩,
       ⟨"B", "tb", some [], none, none, none⟩]).map Folder.parent =
      [none, some [("A", "ta")]] := by decide

/-- C2, counterexample: the acyclic "diamond" record set A -> {B, D},
B -> {D} (a node referenced as a child of two parents, no cycle) builds to
levels A=0, B=1, D=1, so the reachable edge B -> D violates
`level(child) = level(parent) + 1`: the claim's invariant fails on a
cycle-free record set. -/
theorem c2_counterexample :
    AcyclicChildGraph
      [⟨"A", "ta", some ["B", "D"], none, none, none⟩,
       ⟨"B", "tb", some ["D"], none, none, none⟩,
       ⟨"D", "td", some [], none, none, none⟩] ∧
    build_hierarchy 10
      [⟨"A", "ta", some ["B", "D"], none, none, none⟩,
       ⟨"B", "tb", some ["D"], none, none, none⟩,
       ⟨"D", "td", some [], none, none, none⟩] =
      some [⟨"A", "ta", none, none, some [("B", "tb"), ("D", "td")], some 0⟩,
            ⟨"B", "tb", none, some [("A", "ta")], some [("D", "td")], some 1⟩,
            ⟨"D", "td", none, some [("B", "tb")], some [], some 1⟩] ∧
    ¬ LevelInvariant
      [⟨"A", "ta", some ["B", "D"], none, none, none⟩,
       ⟨"B", "tb", some ["D"], none, none, none⟩,
       ⟨"D", "td", some [], none, none, none⟩]
      [⟨"A", "ta", none, none, some [("B", "tb"), ("D", "td")], some 0⟩,
       ⟨"B", "tb", none, some [("A", "ta")], some [("D", "td")], some 1⟩,
       ⟨"D", "td", none, some [("B", "tb")], some [], some 1⟩] := by
  refine ⟨acyclic_of_rank
      (fun x => if x = "A" then 0 else if x = "B" then 1 else 2) ?_,
    by decide, ?_⟩
  · intro p c h
    obtain ⟨⟨r, hr, hid, hc⟩, _⟩ := h
    subst hid
    simp only [List.mem_cons, List.not_mem_nil, or_false] at hr
    rcases hr with rfl | rfl | rfl <;>
      (simp_all
       all_goals rcases hc with rfl | rfl <;> decide)
  · intro hli
    obtain ⟨h1, _⟩ := hli
    have hAB : edgeTo
        [⟨"A", "ta", some ["B", "D"], none, none, none⟩,
         ⟨"B", "tb", some ["D"], none, none, none⟩,
         ⟨"D", "td", some [], none, none, none⟩] "A" "B" :=
      ⟨⟨⟨"A", "ta", some ["B", "D"], none, none, none⟩,
        by decide, rfl, by decide⟩, by decide⟩
    have hBD : edgeTo
        [⟨"A", "ta", some ["B", "D"], none, none, none⟩,
         ⟨"B", "tb", some ["D"], none, none, none⟩,
         ⟨"D", "td", some [], none, none, none⟩] "B" "D" :=
      ⟨⟨⟨"B", "tb", some ["D"], none, none, none⟩,
        by decide, rfl, by decide⟩, by decide⟩
    have hrootA : IsRootId
        [⟨"A", "ta", some ["B", "D"], none, none, none⟩,
         ⟨"B", "tb", some ["D"], none, none, none⟩,
         ⟨"D", "td", some [], none, none, none⟩] "A" := by
      refine ⟨by decide, ?_⟩
      intro p h
      obtain ⟨⟨r, hr, hid, hc⟩, _⟩ := h
      simp only [List.mem_cons, List.not_mem_nil, or_false] at hr
      rcases hr with rfl | rfl | rfl <;> exact absurd hc (by decide)
    obtain ⟨n, hn1, hn2⟩ := h1 "B" "D"
      ⟨"B", "tb", none, some [("A", "ta")], some [("D", "td")], some 1⟩
      ⟨"D", "td", none, some [("B", "tb")], some [], some 1⟩
      hBD ⟨"A", hrootA, Or.inr (ReachPlus.base hAB)⟩
      (by decide) (by decide) rfl rfl
    simp only [Option.some.injEq] at hn1 hn2
    omega

/-- C7, counterexample: on the two-record cycle X <-> Y neither record is a
root, so neither is reachable from a root and neither receives a `level` —
but `folder_level_map` then raises `KeyError` (modelled `none`) instead of
producing a mapping with those ids simply absent. -/
theorem c7_counterexample :
    build_hierarchy 10
      [⟨"X", "tx", some ["Y"], none, none, none⟩,
       ⟨"Y", "ty", some ["X"], none, none, none⟩] =
      some [⟨"X", "tx", none, some [("Y", "ty")], some [("Y", "ty")], none⟩,
            ⟨"Y", "ty", none, some [("X", "tx")], some [("X", "tx")], none⟩] ∧
    (∀ r ∈ [⟨"X", "tx", none, some [("Y", "ty")], some [("Y", "ty")], none⟩,
            (⟨"Y", "ty", none, some [("X", "tx")], some [("X", "tx")], none⟩ : Folder)],
       pyTruthyDict r.parent = true ∧ r.level = none) ∧
    folder_level_map
      [⟨"X", "tx", none, some [("Y", "ty")], some [("Y", "ty")], none⟩,
       ⟨"Y", "ty", none, some [("X", "tx")], some [("X", "tx")], none⟩] = none := by
  exact ⟨by decide, by decide, by decide⟩

theorem alookup_upsert_self {κ α : Type} [DecidableEq κ]
    (m : List (κ × α)) (k : κ) (v : α) : alookup (upsert m k v) k = some v := by
  induction m with
  | nil => simp [upsert, alookup]
  | cons kv rest ih =>
    by_cases h : kv.1 = k
    · simp [upsert, alookup, h]
    · simp [upsert, alookup, h, ih]

theorem alookup_upsert_ne {κ α : Type} [DecidableEq κ]
    (m : List (κ × α)) (k k' : κ) (v : α) (h : k ≠ k') :
    alookup (upsert m k v) k' = alookup m k' := by
  induction m with
  | nil => simp [upsert, alookup, h]
  | cons kv rest ih =>
    by_cases hk : kv.1 = k
    · simp [upsert, alookup, hk, h]
    · simp only [upsert, hk, if_false]
      by_cases hk' : kv.1 = k'
      · simp [alookup, hk']
      · simp [alookup, hk', ih]

theorem hasKey_upsert {κ α : Type} [DecidableEq κ]
    (m : List (κ × α)) (k k' : κ) (v : α) :
    hasKey (upsert m k v) k' = (hasKey m k' || decide (k' = k)) := by
  by_cases h : k' = k
  · subst h
    simp [hasKey, alookup_upsert_self]
  · rw [hasKey, alookup_upsert_ne m k k' v (fun hh => h hh.symm)]
    simp [hasKey, h]

theorem hasKey_iff_exists {κ α : Type} [DecidableEq κ]
    (m : List (κ × α)) (k : κ) :
    hasKey m k = true ↔ ∃ v, alookup m k = some v := by
  rw [hasKey, Option.isSome_iff_exists]

theorem mem_akeys_upsert {κ α : Type} [DecidableEq κ]
    (m : List (κ × α)) (k k' : κ) (v : α) :
    k' ∈ akeys (upsert m k v) ↔ k' ∈ akeys m ∨ k' = k := by
  induction m with
  | nil => simp [upsert, akeys]
  | cons kv rest ih =>
    by_cases h : kv.1 = k
    · subst h
      simp only [upsert, if_true, akeys, List.map_cons, List.mem_cons] at ih ⊢
      tauto
    · simp only [upsert, h, if_false, akeys, List.map_cons, List.mem_cons] at ih ⊢
      rw [ih]
      tauto

theorem mem_akeys_dict_build (cids : List String) (f : String → String) :
    ∀ (init : List (String × String)) (y : String),
      y ∈ akeys (cids.foldl (fun m cid => upsert m cid (f cid)) init) ↔
        y ∈ akeys init ∨ y ∈ cids := by
  induction cids with
  | nil => simp
  | cons c rest ih =>
    intro init y
    simp only [List.foldl_cons, List.mem_cons]
    rw [ih (upsert init c (f c)) y, mem_akeys_upsert]
    tauto

theorem alookup_fold_idToFolder (fd : List Folder) (x : String) (r : Folder) :
    ∀ (init : List (String × Folder)),
      alookup (fd.foldl (fun m r => upsert m r.id r) init) x = some r →
      alookup init x = some r ∨ (r ∈ fd ∧ r.id = x) := by
  induction fd with
  | nil => intro init h; exact Or.inl h
  | cons r0 rest ih =>
    intro init h
    rcases ih (upsert init r0.id r0) h with h' | h'
    · by_cases hx : x = r0.id
      · subst hx
        rw [alookup_upsert_self] at h'
        cases h'
        exact Or.inr ⟨List.mem_cons_self _ _, rfl⟩
      · rw [alookup_upsert_ne _ _ _ _ (fun hh => hx hh.symm)] at h'
        exact Or.inl h'
    · exact Or.inr ⟨List.mem_cons_of_mem _ h'.1, h'.2⟩

theorem alookup_idToFolder (fd : List Folder) (x : String) (r : Folder)
    (h : alookup (idToFolder fd) x = some r) : r ∈ fd ∧ r.id = x := by
  rcases alookup_fold_idToFolder fd x r [] h with h' | h'
  · cases h'
  · exact h'

theorem hasKey_fold_idToFolder (fd : List Folder) (x : String) :
    ∀ (init : List (String × Folder)),
      hasKey (fd.foldl (fun m r => upsert m r.id r) init) x =
        (hasKey init x || decide (x ∈ idsOf fd)) := by
  induction fd with
  | nil => intro init; simp [idsOf]
  | cons r0 rest ih =>
    intro init
    simp only [List.foldl_cons]
    rw [ih (upsert init r0.id r0), hasKey_upsert]
    simp only [idsOf, List.map_cons, List.mem_cons]
    by_cases hx : x = r0.id <;> simp [hx]

theorem hasKey_idToFolder (fd : List Folder) (x : String) :
    hasKey (idToFolder fd) x = decide (x ∈ idsOf fd) := by
  rw [idToFolder, hasKey_fold_idToFolder]
  simp [hasKey, alookup]

/-- The fields of a record other than `parent`. -/
def stripParent (r : Folder) :
    String × String × Option (List String) ×
      Option (List (String × String)) × Option Nat :=
  (r.id, r.title, r.childIds, r.child, r.level)

theorem assignParent_stripParent (it : List (String × String)) (pid cid : String) :
    ∀ l : List Folder,
      (assignParent it pid cid l).map stripParent = l.map stripParent := by
  intro l
  induction l with
  | nil => rfl
  | cons r rest ih =>
    by_cases h : r.id = cid
    · simp [assignParent, h, stripParent]
    · simp [assignParent, h, ih]

theorem fold_assignParent_stripParent (it : List (String × String)) :
    ∀ (pairs : List (String × Option (List String))) (acc : List Folder),
      (pairs.foldl
        (fun acc pc =>
          match pc.2 with
          | none => acc
          | some cids =>
            if cids = [] then acc
            else cids.foldl (fun a2 cid => assignParent it pc.1 cid a2) acc)
        acc).map stripParent = acc.map stripParent := by
  intro pairs
  induction pairs with
  | nil => intro acc; rfl
  | cons pc rest ih =>
    intro acc
    simp only [List.foldl_cons]
    rcases pc with ⟨pid, _ | cids⟩
    · exact ih acc
    · by_cases hc : cids = []
      · simp only [hc, if_true]
        exact ih acc
      · simp only [hc, if_false]
        have hinner : ∀ (cs : List String) (a : List Folder),
            ((cs.foldl (fun a c => assignParent it pid c a) a).map
              stripParent) = a.map stripParent := by
          intro cs
          induction cs with
          | nil => intro a; rfl
          | cons c cs ihc =>
            intro a
            simp only [List.foldl_cons]
            rw [ihc, assignParent_stripParent]
        rw [ih, hinner]

theorem add_parent_kv_stripParent (fd : List Folder) :
    (add_parent_kv fd).map stripParent = fd.map stripParent := by
  rw [add_parent_kv]
  exact fold_assignParent_stripParent (idToTitle fd) _ fd

theorem hasKey_eq_mem_akeys {κ α : Type} [DecidableEq κ]
    (m : List (κ × α)) (k : κ) : hasKey m k = true ↔ k ∈ akeys m := by
  induction m with
  | nil => simp [hasKey, alookup, akeys]
  | cons kv rest ih =>
    by_cases h : kv.1 = k
    · simp [hasKey, alookup, h, akeys]
    · simp only [hasKey, alookup, h, if_false, akeys, List.map_cons,
        List.mem_cons] at ih ⊢
      rw [ih]
      have : ¬ k = kv.1 := fun hh => h hh.symm
      tauto

theorem reachPlus_head {fd : List Folder} {x c y : String}
    (h : edgeTo fd x c) (hp : ReachPlus fd c y) : ReachPlus fd x y := by
  induction hp with
  | base e => exact .step (.base h) e
  | step _ e ih => exact .step ih e

theorem reachStar_head {fd : List Folder} {x c y : String}
    (h : edgeTo fd x c) (hs : ReachStar fd c y) : ReachStar fd x y := by
  rcases hs with rfl | hp
  · exact Or.inr (.base h)
  · exact Or.inr (reachPlus_head h hp)

/-- Every id that `assign_level` adds to the level dict is reachable (in the
child-reference graph of the input record set) from the id it starts at. -/
theorem assign_level_keys (fd : List Folder) (i2f : List (String × Folder))
    (hedge : ∀ a b, (∃ r, alookup i2f a = some r ∧
      b ∈ akeys (r.child.getD []) ∧ hasKey i2f b = true) → edgeTo fd a b) :
    ∀ (fuel : Nat) (x : String) (lvl : Nat) (lv res : List (String × Nat)),
      assign_level i2f fuel x lvl lv = some res →
      ∀ y, hasKey res y = true → hasKey lv y = true ∨ ReachStar fd x y := by
  intro fuel
  induction fuel with
  | zero => intro x lvl lv res h; simp [assign_level] at h
  | succ fuel ih =>
    intro x lvl lv res h y hy
    rw [assign_level] at h
    rcases hl : alookup i2f x with _ | r <;> rw [hl] at h
    · simp only [List.foldlM_nil] at h
      cases h
      rw [hasKey_eq_mem_akeys] at hy
      rcases (mem_akeys_upsert lv x y lvl).mp hy with hm | rfl
      · left
        rw [hasKey_eq_mem_akeys]
        exact hm
      · exact Or.inr (Or.inl rfl)
    · have key : ∀ (cs : List String),
          (∀ c ∈ cs, c ∈ akeys (r.child.getD [])) →
          ∀ (acc res : List (String × Nat)),
            (cs.foldlM (fun a cid =>
              if hasKey i2f cid then assign_level i2f fuel cid (lvl + 1) a
              else pure a) acc) = some res →
          ∀ y, hasKey res y = true →
            hasKey acc y = true ∨ ∃ c, edgeTo fd x c ∧ ReachStar fd c y := by
        intro cs
        induction cs with
        | nil =>
          intro _ acc res h y hy
          simp only [List.foldlM_nil] at h
          cases h
          exact Or.inl hy
        | cons c cs ihc =>
          intro hsub acc res h y hy
          rw [List.foldlM_cons] at h
          by_cases hkc : hasKey i2f c = true
          · simp only [hkc, if_true] at h
            rcases ha : assign_level i2f fuel c (lvl + 1) acc with _ | acc' <;>
              rw [ha] at h
            · exact Option.noConfusion h
            · replace h : cs.foldlM (fun a cid =>
                  if hasKey i2f cid then assign_level i2f fuel cid (lvl + 1) a
                  else pure a) acc' = some res := h
              rcases ihc (fun d hd => hsub d (List.mem_cons_of_mem _ hd))
                  acc' res h y hy with h' | h'
              · rcases ih c (lvl + 1) acc acc' ha y h' with h'' | h''
                · exact Or.inl h''
                · refine Or.inr ⟨c, ?_, h''⟩
                  exact hedge x c ⟨r, hl, hsub c (List.mem_cons_self _ _), hkc⟩
              · exact Or.inr h'
          · simp only [hkc, Bool.false_eq_true, if_false] at h
            replace h : cs.foldlM (fun a cid =>
                if hasKey i2f cid then assign_level i2f fuel cid (lvl + 1) a
                else pure a) acc = some res := h
            exact ihc (fun d hd => hsub d (List.mem_cons_of_mem _ hd))
              acc res h y hy
      rcases key (akeys (r.child.getD [])) (fun _ hc => hc) _ res h y hy
        with h' | ⟨c, hc, hcy⟩
      · rw [hasKey_upsert] at h'
        rcases Bool.or_eq_true_iff.mp h' with h'' | h''
        · exact Or.inl h''
        · right
          left
          exact (of_decide_eq_true h'').symm
      · exact Or.inr (reachStar_head hc hcy)

/-- Every id in the level dict built by `add_level`'s root loop is reachable
from the id of some falsy-parent (root) record. -/
theorem add_level_fold_keys (fd : List Folder) (i2f : List (String × Folder))
    (hedge : ∀ a b, (∃ r, alookup i2f a = some r ∧
      b ∈ akeys (r.child.getD []) ∧ hasKey i2f b = true) → edgeTo fd a b)
    (fuel : Nat) :
    ∀ (rs : List Folder) (lv0 lvres : List (String × Nat)),
      (rs.foldlM (fun lv r =>
        if pyTruthyDict r.parent then pure lv
        else assign_level i2f fuel r.id 0 lv) lv0) = some lvres →
      ∀ y, hasKey lvres y = true → hasKey lv0 y = true ∨
        ∃ r ∈ rs, pyTruthyDict r.parent = false ∧ ReachStar fd r.id y := by
  intro rs
  induction rs with
  | nil =>
    intro lv0 lvres h y hy
    simp only [List.foldlM_nil] at h
    cases h
    exact Or.inl hy
  | cons r rs ih =>
    intro lv0 lvres h y hy
    rw [List.foldlM_cons] at h
    by_cases hp : pyTruthyDict r.parent = true
    · simp only [hp, if_true] at h
      replace h : rs.foldlM (fun lv r =>
          if pyTruthyDict r.parent then pure lv
          else assign_level i2f fuel r.id 0 lv) lv0 = some lvres := h
      rcases ih lv0 lvres h y hy with h' | ⟨r', hr', hpr', hre'⟩
      · exact Or.inl h'
      · exact Or.inr ⟨r', List.mem_cons_of_mem _ hr', hpr', hre'⟩
    · simp only [hp, Bool.false_eq_true, if_false] at h
      rcases ha : assign_level i2f fuel r.id 0 lv0 with _ | lv1 <;> rw [ha] at h
      · exact Option.noConfusion h
      · replace h : rs.foldlM (fun lv r =>
            if pyTruthyDict r.parent then pure lv
            else assign_level i2f fuel r.id 0 lv) lv1 = some lvres := h
        rcases ih lv1 lvres h y hy with h' | ⟨r', hr', hpr', hre'⟩
        · rcases assign_level_keys fd i2f hedge fuel r.id 0 lv0 lv1 ha y h'
            with h'' | h''
          · exact Or.inl h''
          · exact Or.inr ⟨r, List.mem_cons_self _ _,
              Bool.eq_false_iff.mpr hp, h''⟩
        · exact Or.inr ⟨r', List.mem_cons_of_mem _ hr', hpr', hre'⟩

/-- Unfolding `add_level`: a successful run is a successful root-loop fold
plus the per-record level write-back. -/
theorem add_level_elim (fuel : Nat) (out0 out : List Folder)
    (h : add_level fuel out0 = some out) :
    ∃ lv, (out0.foldlM (fun lv r =>
        if pyTruthyDict r.parent then pure lv
        else assign_level (idToFolder out0) fuel r.id 0 lv)
        ([] : List (String × Nat))) = some lv ∧
      out = out0.map (fun r =>
        match alookup lv r.id with
        | some n => { r with level := some n }
        | none => r) := by
  rw [add_level] at h
  rcases hf : (out0.foldlM (fun lv r =>
      if pyTruthyDict r.parent then pure lv
      else assign_level (idToFolder out0) fuel r.id 0 lv)
      ([] : List (String × Nat))) with _ | lv <;> rw [hf] at h
  · exact Option.noConfusion h
  · simp only [Option.some.injEq] at h
    exact ⟨lv, hf, h.symm⟩

/-- The fold of `folder_level_map` fails from any start as soon as some
record lacks a `level`. -/
theorem folder_level_map_fold_none :
    ∀ (l : List Folder) (init : List (String × Nat)),
      (∃ r ∈ l, r.level = none) →
      (l.foldlM (fun m r =>
        match r.level with
        | some n => pure (upsert m r.id n)
        | none => none) init) = none := by
  intro l
  induction l with
  | nil =>
    intro init h
    obtain ⟨r, hr, _⟩ := h
    cases hr
  | cons r0 rest ih =>
    intro init h
    obtain ⟨r, hr, hl⟩ := h
    rw [List.foldlM_cons]
    cases h0 : r0.level with
    | none => rfl
    | some n =>
      rcases List.mem_cons.mp hr with rfl | hr'
      · rw [h0] at hl
        cases hl
      · exact ih (upsert init r0.id n) ⟨r, hr', hl⟩

/-- `folder_level_map` raises (returns `none`) as soon as any record lacks a
`level`. -/
theorem folder_level_map_none (l : List Folder) (r : Folder) (hr : r ∈ l)
    (hl : r.level = none) : folder_level_map l = none := by
  rw [folder_level_map]
  exact folder_level_map_fold_none l [] ⟨r, hr, hl⟩

theorem mem_of_strip {l1 l2 : List Folder}
    (h : l1.map stripParent = l2.map stripParent) {r1 : Folder}
    (hr : r1 ∈ l1) : ∃ r2 ∈ l2, stripParent r2 = stripParent r1 := by
  have hmem : stripParent r1 ∈ l2.map stripParent := by
    rw [← h]
    exact List.mem_map_of_mem _ hr
  obtain ⟨r2, hr2, he⟩ := List.mem_map.mp hmem
  exact ⟨r2, hr2, he⟩

theorem idsOf_add_child_kv (l : List Folder) :
    idsOf (add_child_kv l) = idsOf l := by
  simp [add_child_kv, idsOf, List.map_map, Function.comp]

theorem idsOf_of_strip {l1 l2 : List Folder}
    (h : l1.map stripParent = l2.map stripParent) : idsOf l1 = idsOf l2 := by
  have := congrArg (List.map (fun t => t.1)) h
  simpa [idsOf, List.map_map, Function.comp, stripParent] using this

/-- Edges seen by `assign_level` through `id_to_folder` of the built record
set are edges of the input record set's child-reference graph. -/
theorem pipeline_hedge (fd : List Folder) :
    ∀ a b, (∃ r, alookup (idToFolder (add_child_kv (add_parent_kv fd))) a =
        some r ∧ b ∈ akeys (r.child.getD []) ∧
        hasKey (idToFolder (add_child_kv (add_parent_kv fd))) b = true) →
      edgeTo fd a b := by
  intro a b h
  obtain ⟨r, hl, hb, hkb⟩ := h
  obtain ⟨hrmem, hrid⟩ := alookup_idToFolder _ a r hl
  rw [add_child_kv] at hrmem
  obtain ⟨r1, hr1, rfl⟩ := List.mem_map.mp hrmem
  have hb' : b ∈ r1.childIds.getD [] := by
    rcases (mem_akeys_dict_build (r1.childIds.getD [])
        (fun cid => (alookup (idToTitle (add_parent_kv fd)) cid).getD "") [] b).mp
        (by simpa using hb) with h' | h'
    · simp [akeys] at h'
    · exact h'
  obtain ⟨rf, hrf, hstrip⟩ := mem_of_strip (add_parent_kv_stripParent fd) hr1
  have hid : rf.id = r1.id := congrArg (fun t => t.1) hstrip
  have hcid : rf.childIds = r1.childIds := congrArg (fun t => t.2.2.1) hstrip
  have hids : b ∈ idsOf fd := by
    rw [hasKey_idToFolder] at hkb
    have hb2 : b ∈ idsOf (add_child_kv (add_parent_kv fd)) :=
      of_decide_eq_true hkb
    rw [idsOf_add_child_kv, idsOf_of_strip (add_parent_kv_stripParent fd)] at hb2
    exact hb2
  refine ⟨⟨rf, hrf, ?_, ?_⟩, hids⟩
  · rw [hid]
    exact hrid
  · rw [hcid]
    exact hb'

/-- C7, amended: after the hierarchy build, a record unreachable from every
root (falsy-parent record) carries no `level` key — and `folder_level_map`
then raises `KeyError` on the record set (modelled `none`) rather than
producing a mapping with that record's id simply absent. -/
theorem c7_unreachable_without_level (fd : List Folder) (fuel : Nat)
    (out : List Folder) (orphan : Folder)
    (hfresh : ∀ r ∈ fd, r.level = none)
    (hrun : build_hierarchy fuel fd = some out)
    (hmem : orphan ∈ out)
    (hunreach : ∀ root ∈ out, pyTruthyDict root.parent = false →
      ¬ ReachStar fd root.id orphan.id) :
    orphan.level = none ∧ folder_level_map out = none := by
  rw [build_hierarchy] at hrun
  obtain ⟨lv, hlv, hout⟩ := add_level_elim fuel _ out hrun
  have hupd_id : ∀ r : Folder,
      (match alookup lv r.id with
       | some n => { r with level := some n }
       | none => r).id = r.id := by
    intro r
    cases alookup lv r.id <;> rfl
  have hupd_parent : ∀ r : Folder,
      (match alookup lv r.id with
       | some n => { r with level := some n }
       | none => r).parent = r.parent := by
    intro r
    cases alookup lv r.id <;> rfl
  have hlev0 : ∀ r0 ∈ add_child_kv (add_parent_kv fd), r0.level = none := by
    intro r0 hr0
    rw [add_child_kv] at hr0
    obtain ⟨r1, hr1, rfl⟩ := List.mem_map.mp hr0
    obtain ⟨rf, hrf, hstrip⟩ := mem_of_strip (add_parent_kv_stripParent fd) hr1
    have hl1 : rf.level = r1.level := congrArg (fun t => t.2.2.2.2) hstrip
    have : rf.level = none := hfresh rf hrf
    rw [hl1] at this
    exact this
  have horph : orphan.level = none := by
    rw [hout] at hmem
    obtain ⟨r0, hr0, rfl⟩ := List.mem_map.mp hmem
    cases halk : alookup lv r0.id with
    | none =>
      simp only [halk]
      exact hlev0 r0 hr0
    | some n =>
      exfalso
      have hk : hasKey lv r0.id = true := by
        rw [hasKey, halk]
        rfl
      rcases add_level_fold_keys fd _ (pipeline_hedge fd) fuel _ _ lv hlv
          r0.id hk with h' | ⟨root, hrootm, hrootp, hreach⟩
      · simp [hasKey, alookup] at h'
      · have hrootout : (match alookup lv root.id with
            | some n => { root with level := some n }
            | none => root) ∈ out := by
          rw [hout]
          exact List.mem_map_of_mem _ hrootm
        have := hunreach _ hrootout (by rw [hupd_parent]; exact hrootp)
        rw [hupd_id root, hupd_id r0] at this
        exact this hreach
  exact ⟨horph, folder_level_map_none out orphan hmem horph⟩

/-- Witness for the amended C7 at the concrete X <-> Y cycle (no roots, so
every record is vacuously unreachable from a root). -/
theorem c7_unreachable_without_level_witness :
    (⟨"X", "tx", none, some [("Y", "ty")], some [("Y", "ty")], none⟩ : Folder).level
        = none ∧
    folder_level_map
      [⟨"X", "tx", none, some [("Y", "ty")], some [("Y", "ty")], none⟩,
       ⟨"Y", "ty", none, some [("X", "tx")], some [("X", "tx")], none⟩] = none := by
  exact c7_unreachable_without_level
    [⟨"X", "tx", some ["Y"], none, none, none⟩,
     ⟨"Y", "ty", some ["X"], none, none, none⟩]
    10
    [⟨"X", "tx", none, some [("Y", "ty")], some [("Y", "ty")], none⟩,
     ⟨"Y", "ty", none, some [("X", "tx")], some [("X", "tx")], none⟩]
    ⟨"X", "tx", none, some [("Y", "ty")], some [("Y", "ty")], none⟩
    (by decide) (by decide) (by decide)
    (by
      intro root hmem hfalsy
      rcases List.mem_cons.mp hmem with rfl | hmem'
      · exact absurd hfalsy (by decide)
      · rcases List.mem_cons.mp hmem' with rfl | hmem''
        · exact absurd hfalsy (by decide)
        · cases hmem'')

theorem pathLen_zero {fd : List Folder} {x y : String}
    (h : PathLen fd x y 0) : x = y := by
  cases h
  rfl

theorem pathLen_last {fd : List Folder} {x y : String} {k : Nat}
    (h : PathLen fd x y (k + 1)) :
    ∃ p, PathLen fd x p k ∧ edgeTo fd p y := by
  cases h with
  | step hp he => exact ⟨_, hp, he⟩

theorem pathLen_trans {fd : List Folder} {r x y : String} {k j : Nat}
    (h1 : PathLen fd r x k) (h2 : PathLen fd x y j) :
    PathLen fd r y (k + j) := by
  induction h2 with
  | refl => exact h1
  | step _ he ih => exact .step ih he

theorem pathLen_prepend {fd : List Folder} {x c y : String} {j : Nat}
    (he : edgeTo fd x c) (h : PathLen fd c y j) : PathLen fd x y (j + 1) := by
  have : PathLen fd x c 1 := .step (.refl x) he
  have := pathLen_trans this h
  rwa [Nat.add_comm 1 j] at this

theorem pathLen_first_edge {fd : List Folder} {x y : String} {j : Nat}
    (h : PathLen fd x y (j + 1)) :
    ∃ c, edgeTo fd x c ∧ PathLen fd c y j := by
  induction j generalizing y with
  | zero =>
    obtain ⟨p, hp, he⟩ := pathLen_last h
    cases pathLen_zero hp
    exact ⟨y, he, .refl y⟩
  | succ j ih =>
    obtain ⟨p, hp, he⟩ := pathLen_last h
    obtain ⟨c, hc, hcp⟩ := ih hp
    exact ⟨c, hc, .step hcp he⟩

theorem reachPlus_of_pathLen {fd : List Folder} {x y : String} {j : Nat}
    (h : PathLen fd x y (j + 1)) : ReachPlus fd x y := by
  induction j generalizing y with
  | zero =>
    obtain ⟨p, hp, he⟩ := pathLen_last h
    cases pathLen_zero hp
    exact .base he
  | succ j ih =>
    obtain ⟨p, hp, he⟩ := pathLen_last h
    exact .step (ih hp) he

theorem pathLen_of_reachPlus {fd : List Folder} {x y : String}
    (h : ReachPlus fd x y) : ∃ j, PathLen fd x y (j + 1) := by
  induction h with
  | base he => exact ⟨0, .step (.refl _) he⟩
  | step _ he ih =>
    obtain ⟨j, hj⟩ := ih
    exact ⟨j + 1, .step hj he⟩

theorem reachStar_iff_pathLen {fd : List Folder} {x y : String} :
    ReachStar fd x y ↔ ∃ j, PathLen fd x y j := by
  constructor
  · rintro (rfl | hp)
    · exact ⟨0, .refl x⟩
    · obtain ⟨j, hj⟩ := pathLen_of_reachPlus hp
      exact ⟨j + 1, hj⟩
  · rintro ⟨j, hj⟩
    cases j with
    | zero => exact Or.inl (pathLen_zero hj)
    | succ j => exact Or.inr (reachPlus_of_pathLen hj)

theorem pathLen_self_zero {fd : List Folder} (hacyc : AcyclicChildGraph fd)
    {x : String} {j : Nat} (h : PathLen fd x x j) : j = 0 := by
  cases j with
  | zero => rfl
  | succ j => exact absurd (reachPlus_of_pathLen h) (hacyc x)

theorem eq_of_mem_of_id {l : List Folder} (h : (idsOf l).Nodup) {r1 r2 : Folder}
    (h1 : r1 ∈ l) (h2 : r2 ∈ l) (hid : r1.id = r2.id) : r1 = r2 := by
  induction l with
  | nil => cases h1
  | cons r rest ih =>
    rw [idsOf, List.map_cons, List.nodup_cons] at h
    rcases List.mem_cons.mp h1 with rfl | h1' <;>
      rcases List.mem_cons.mp h2 with rfl | h2'
    · rfl
    · exact absurd (hid ▸ List.mem_map_of_mem Folder.id h2') h.1
    · exact absurd (hid ▸ List.mem_map_of_mem Folder.id h1') h.1
    · exact ih h.2 h1' h2'

theorem edge_unique_parent {fd : List Folder}
    (hsp : SingleParent fd) {p1 p2 y : String}
    (h1 : edgeTo fd p1 y) (h2 : edgeTo fd p2 y) : p1 = p2 := by
  obtain ⟨⟨r1, hr1, hid1, hc1⟩, _⟩ := h1
  obtain ⟨⟨r2, hr2, hid2, hc2⟩, _⟩ := h2
  rw [SingleParent, List.nodup_flatten] at hsp
  have hdisj := (List.pairwise_map (l := fd)
    (f := fun r : Folder => r.childIds.getD [])).mp hsp.2
  by_cases hr : r1 = r2
  · rw [← hid1, ← hid2, hr]
  · exfalso
    have := hdisj.forall (fun a b hab => List.Disjoint.symm hab) hr1 hr2 hr
    exact this hc1 hc2

theorem pathLen_comparable {fd : List Folder}
    (hsp : SingleParent fd) {a b y : String} {ka kb : Nat}
    (ha : PathLen fd a y ka) (hb : PathLen fd b y kb) :
    (∃ j, PathLen fd a b j) ∨ (∃ j, PathLen fd b a j) := by
  induction ka generalizing y kb with
  | zero =>
    cases pathLen_zero ha
    exact Or.inr ⟨kb, hb⟩
  | succ ka ih =>
    obtain ⟨p, hp, he⟩ := pathLen_last ha
    cases kb with
    | zero =>
      cases pathLen_zero hb
      exact Or.inl ⟨ka + 1, ha⟩
    | succ kb =>
      obtain ⟨p', hp', he'⟩ := pathLen_last hb
      have : p' = p := edge_unique_parent hsp he' he
      subst this
      exact ih hp hp'

theorem root_reach_unique {fd : List Folder}
    (hsp : SingleParent fd) {r r' y : String}
    (hr : IsRootId fd r) (hr' : IsRootId fd r')
    (h1 : ∃ k, PathLen fd r y k) (h2 : ∃ k', PathLen fd r' y k') : r = r' := by
  obtain ⟨k, hk⟩ := h1
  obtain ⟨k', hk'⟩ := h2
  rcases pathLen_comparable hsp hk hk' with ⟨j, hj⟩ | ⟨j, hj⟩
  · cases j with
    | zero => exact pathLen_zero hj
    | succ j =>
      obtain ⟨p, _, he⟩ := pathLen_last hj
      exact absurd he (hr'.2 p)
  · cases j with
    | zero => exact (pathLen_zero hj).symm
    | succ j =>
      obtain ⟨p, _, he⟩ := pathLen_last hj
      exact absurd he (hr.2 p)

theorem sibling_subtree_disjoint {fd : List Folder}
    (hsp : SingleParent fd) (hacyc : AcyclicChildGraph fd)
    {x c1 c2 y : String} (h1 : edgeTo fd x c1) (h2 : edgeTo fd x c2)
    (hne : c1 ≠ c2) (hy1 : ∃ j, PathLen fd c1 y j)
    (hy2 : ∃ j, PathLen fd c2 y j) : False := by
  obtain ⟨j1, hj1⟩ := hy1
  obtain ⟨j2, hj2⟩ := hy2
  rcases pathLen_comparable hsp hj1 hj2 with ⟨j, hj⟩ | ⟨j, hj⟩
  · cases j with
    | zero => exact hne (pathLen_zero hj)
    | succ j =>
      obtain ⟨p, hp, he⟩ := pathLen_last hj
      have hpx : p = x := edge_unique_parent hsp he h2
      rw [hpx] at hp
      have := pathLen_prepend h1 hp
      exact absurd (reachPlus_of_pathLen this) (hacyc x)
  · cases j with
    | zero => exact hne (pathLen_zero hj).symm
    | succ j =>
      obtain ⟨p, hp, he⟩ := pathLen_last hj
      have hpx : p = x := edge_unique_parent hsp he h1
      rw [hpx] at hp
      have := pathLen_prepend h2 hp
      exact absurd (reachPlus_of_pathLen this) (hacyc x)

theorem findRec_mem {l : List Folder} {x : String} {r : Folder}
    (h : findRec l x = some r) : r ∈ l ∧ r.id = x := by
  induction l with
  | nil => cases h
  | cons r0 rest ih =>
    rw [findRec] at h
    by_cases h0 : r0.id = x
    · rw [if_pos h0] at h
      cases h
      exact ⟨List.mem_cons_self _ _, h0⟩
    · rw [if_neg h0] at h
      obtain ⟨hm, hid⟩ := ih h
      exact ⟨List.mem_cons_of_mem _ hm, hid⟩

theorem findRec_isSome_iff (l : List Folder) (x : String) :
    (findRec l x).isSome = true ↔ x ∈ idsOf l := by
  induction l with
  | nil => simp [findRec, idsOf]
  | cons r0 rest ih =>
    rw [findRec]
    by_cases h0 : r0.id = x
    · simp [h0, idsOf]
    · simp only [h0, if_false, idsOf, List.map_cons, List.mem_cons]
      rw [ih]
      simp only [idsOf]
      constructor
      · exact Or.inr
      · rintro (h | h)
        · exact absurd h.symm h0
        · exact h

theorem findRec_self_of_nodup {l : List Folder} (h : (idsOf l).Nodup)
    {r : Folder} (hr : r ∈ l) : findRec l r.id = some r := by
  induction l with
  | nil => cases hr
  | cons r0 rest ih =>
    rw [idsOf, List.map_cons, List.nodup_cons] at h
    rw [findRec]
    rcases List.mem_cons.mp hr with rfl | hr'
    · rw [if_pos rfl]
    · have hne : r0.id ≠ r.id := by
        intro he
        exact h.1 (he ▸ List.mem_map_of_mem Folder.id hr')
      rw [if_neg hne]
      exact ih h.2 hr'

theorem findRec_assignParent_ne (it : List (String × String))
    (pid cid x : String) (hx : x ≠ cid) :
    ∀ l : List Folder, findRec (assignParent it pid cid l) x = findRec l x := by
  intro l
  induction l with
  | nil => rfl
  | cons r rs ih =>
    rw [assignParent]
    by_cases h : r.id = cid
    · rw [if_pos h]
      have hne : r.id ≠ x := by rw [h]; exact fun hh => hx hh.symm
      simp [findRec, hne]
    · rw [if_neg h, findRec, findRec]
      by_cases h2 : r.id = x
      · simp only [h2, if_true]
      · simp only [h2, if_false]
        exact ih

theorem findRec_assignParent_self (it : List (String × String))
    (pid cid : String) :
    ∀ l : List Folder, findRec (assignParent it pid cid l) cid =
      (findRec l cid).map
        (fun r => { r with parent := some (mkParent it pid) }) := by
  intro l
  induction l with
  | nil => rfl
  | cons r rs ih =>
    rw [assignParent]
    by_cases h : r.id = cid
    · rw [if_pos h]
      simp [findRec, h]
    · rw [if_neg h, findRec, findRec]
      simp only [h, if_false]
      exact ih

theorem innerAP_not_mem (it : List (String × String)) (pid x : String) :
    ∀ (cids : List String) (acc : List Folder), x ∉ cids →
      findRec (cids.foldl (fun a c => assignParent it pid c a) acc) x =
        findRec acc x := by
  intro cids
  induction cids with
  | nil => intro acc _; rfl
  | cons c rest ih =>
    intro acc hx
    rw [List.foldl_cons]
    rw [ih _ (fun h => hx (List.mem_cons_of_mem _ h))]
    exact findRec_assignParent_ne it pid c x
      (fun h => hx (h ▸ List.mem_cons_self _ _)) acc

theorem innerAP_mem (it : List (String × String)) (pid x : String) :
    ∀ (cids : List String) (acc : List Folder), cids.Nodup → x ∈ cids →
      findRec (cids.foldl (fun a c => assignParent it pid c a) acc) x =
        (findRec acc x).map
          (fun r => { r with parent := some (mkParent it pid) }) := by
  intro cids
  induction cids with
  | nil => intro acc _ hx; cases hx
  | cons c rest ih =>
    intro acc hnd hx
    rw [List.nodup_cons] at hnd
    rw [List.foldl_cons]
    rcases List.mem_cons.mp hx with rfl | hx'
    · rw [innerAP_not_mem it pid x rest _ hnd.1]
      exact findRec_assignParent_self it pid x acc
    · rw [ih _ hnd.2 hx']
      rw [findRec_assignParent_ne it pid c x
        (fun h => hnd.1 (h ▸ hx')) acc]

theorem refPid_none_of_not_mem :
    ∀ (pairs : List (String × Option (List String))) (x : String),
      x ∉ (pairs.map (fun pc => pc.2.getD [])).flatten →
      refPid pairs x = none := by
  intro pairs
  induction pairs with
  | nil => intro x _; rfl
  | cons pc rest ih =>
    intro x hx
    simp only [List.map_cons, List.flatten_cons, List.mem_append] at hx
    push_neg at hx
    rw [refPid]
    simp only [hx.1, if_false]
    exact ih x hx.2

theorem refPid_mem :
    ∀ (pairs : List (String × Option (List String))) (x pid : String),
      refPid pairs x = some pid →
      ∃ pr ∈ pairs, pr.1 = pid ∧ x ∈ pr.2.getD [] := by
  intro pairs
  induction pairs with
  | nil => intro x pid h; cases h
  | cons pc rest ih =>
    intro x pid h
    rw [refPid] at h
    by_cases hx : x ∈ pc.2.getD []
    · rw [if_pos hx] at h
      cases h
      exact ⟨pc, List.mem_cons_self _ _, rfl, hx⟩
    · rw [if_neg hx] at h
      obtain ⟨pr, hpr, he, hm⟩ := ih x pid h
      exact ⟨pr, List.mem_cons_of_mem _ hpr, he, hm⟩

theorem refPid_isSome_of_mem :
    ∀ (pairs : List (String × Option (List String))) (x : String),
      x ∈ (pairs.map (fun pc => pc.2.getD [])).flatten →
      (refPid pairs x).isSome = true := by
  intro pairs
  induction pairs with
  | nil => intro x hx; cases hx
  | cons pc rest ih =>
    intro x hx
    simp only [List.map_cons, List.flatten_cons, List.mem_append] at hx
    rw [refPid]
    by_cases h : x ∈ pc.2.getD []
    · rw [if_pos h]; rfl
    · rw [if_neg h]
      rcases hx with hx | hx
      · exact absurd hx h
      · exact ih x hx

/-- The net effect of `add_parent_kv`'s write loop on the (first) record with
a given id, when no id is referenced twice: the record of the unique
referencing pair gets its parent written, all others are untouched. -/
theorem foldAP_findRec (it : List (String × String)) :
    ∀ (pairs : List (String × Option (List String))) (acc : List Folder)
      (x : String),
      ((pairs.map (fun pc => pc.2.getD [])).flatten).Nodup →
      findRec (pairs.foldl
        (fun acc pc =>
          match pc.2 with
          | none => acc
          | some cids =>
            if cids = [] then acc
            else cids.foldl (fun a2 cid => assignParent it pc.1 cid a2) acc)
        acc) x =
      (match refPid pairs x with
       | none => findRec acc x
       | some pid => (findRec acc x).map
           (fun r => { r with parent := some (mkParent it pid) })) := by
  intro pairs
  induction pairs with
  | nil => intro acc x _; rfl
  | cons pc rest ih =>
    intro acc x hnd
    simp only [List.map_cons, List.flatten_cons, List.nodup_append] at hnd
    obtain ⟨hnd1, hnd2, hdisj⟩ := hnd
    rw [List.foldl_cons, refPid]
    rcases hpc : pc.2 with _ | cids
    · simp only [hpc, Option.getD_none]
      simp only [List.not_mem_nil, if_false]
      exact ih acc x hnd2
    · simp only [hpc, Option.getD_some] at hdisj hnd1 ⊢
      by_cases hc : cids = []
      · subst hc
        rw [if_pos rfl]
        rw [if_neg (List.not_mem_nil x)]
        exact ih acc x hnd2
      · simp only [hc, if_false]
        by_cases hx : x ∈ cids
        · rw [if_pos hx]
          have hxrest : x ∉ (rest.map (fun pc => pc.2.getD [])).flatten :=
            fun hmem => hdisj hx hmem
          rw [ih _ x hnd2, refPid_none_of_not_mem rest x hxrest]
          exact innerAP_mem it pc.1 x cids acc hnd1 hx
        · rw [if_neg hx]
          rw [ih _ x hnd2]
          rcases refPid rest x with _ | pid
          · exact innerAP_not_mem it pc.1 x cids acc hx
          · rw [innerAP_not_mem it pc.1 x cids acc hx]

/-- After `add_parent_kv` on fresh single-parent records, a record's `parent`
is truthy exactly when some record references it as a child. -/
theorem add_parent_kv_parent_char (fd : List Folder)
    (hids : (idsOf fd).Nodup) (hsp : SingleParent fd)
    (hfresh : ∀ r ∈ fd, r.parent = none)
    (hne : ∀ r ∈ fd, r.id ≠ "") :
    ∀ r1 ∈ add_parent_kv fd,
      (pyTruthyDict r1.parent = true ↔
        ∃ rp ∈ fd, r1.id ∈ rp.childIds.getD []) := by
  intro r1 hr1
  have hids1 : (idsOf (add_parent_kv fd)).Nodup := by
    rw [idsOf_of_strip (add_parent_kv_stripParent fd)]
    exact hids
  have hfind1 : findRec (add_parent_kv fd) r1.id = some r1 :=
    findRec_self_of_nodup hids1 hr1
  have hcomp : ((fun pc : String × Option (List String) => pc.2.getD []) ∘
      (fun r : Folder => (r.id, r.childIds))) =
      fun r : Folder => r.childIds.getD [] := rfl
  have hpairs : ((fd.map (fun r => (r.id, r.childIds))).map
      (fun pc => pc.2.getD [])).flatten.Nodup := by
    rw [List.map_map, hcomp]
    exact hsp
  rw [add_parent_kv, foldAP_findRec (idToTitle fd) _ fd r1.id hpairs] at hfind1
  rcases hrp : refPid (fd.map (fun r => (r.id, r.childIds))) r1.id with _ | pid <;>
    rw [hrp] at hfind1
  · obtain ⟨hm, _⟩ := findRec_mem hfind1
    constructor
    · intro ht
      rw [hfresh r1 hm] at ht
      simp [pyTruthyDict] at ht
    · rintro ⟨rp, hrpm, hx⟩
      exfalso
      have hmem : r1.id ∈ ((fd.map (fun r => (r.id, r.childIds))).map
          (fun pc => pc.2.getD [])).flatten := by
        rw [List.map_map, hcomp]
        exact List.mem_flatten.mpr
          ⟨rp.childIds.getD [], List.mem_map_of_mem _ hrpm, hx⟩
      have := refPid_isSome_of_mem _ _ hmem
      rw [hrp] at this
      cases this
  · obtain ⟨pr, hprm, hpr1, hprx⟩ := refPid_mem _ _ _ hrp
    obtain ⟨rp, hrpm, hrpe⟩ := List.mem_map.mp hprm
    rcases hf : findRec fd r1.id with _ | r0 <;> rw [hf] at hfind1
    · cases hfind1
    · simp only [Option.map_some'] at hfind1
      injection hfind1 with hr1e
      have hpar : r1.parent = some (mkParent (idToTitle fd) pid) := by
        rw [← hr1e]
      have hpidne : pid ≠ "" := by
        have : pr.1 = rp.id := by rw [← hrpe]
        rw [← hpr1, this]
        exact hne rp hrpm
      constructor
      · intro _
        refine ⟨rp, hrpm, ?_⟩
        have : pr.2 = rp.childIds := by rw [← hrpe]
        rw [← this]
        exact hprx
      · intro _
        rw [hpar]
        simp [pyTruthyDict, mkParent, hpidne]

theorem upsert_not_mem {κ α : Type} [DecidableEq κ]
    (m : List (κ × α)) (k : κ) (v : α) (h : k ∉ akeys m) :
    upsert m k v = m ++ [(k, v)] := by
  induction m with
  | nil => rfl
  | cons kv rest ih =>
    simp only [akeys, List.map_cons, List.mem_cons] at h
    push_neg at h
    rw [upsert, if_neg (fun he => h.1 he.symm), ih h.2, List.cons_append]

theorem akeys_dict_build_general (cids : List String) (f : String → String) :
    ∀ init : List (String × String),
      (∀ c ∈ cids, c ∉ akeys init) → cids.Nodup →
      akeys (cids.foldl (fun m cid => upsert m cid (f cid)) init) =
        akeys init ++ cids := by
  induction cids with
  | nil => intro init _ _; simp
  | cons c rest ih =>
    intro init hdisj hnd
    rw [List.nodup_cons] at hnd
    rw [List.foldl_cons,
      upsert_not_mem init c (f c) (hdisj c (List.mem_cons_self _ _))]
    rw [ih (init ++ [(c, f c)]) ?_ hnd.2]
    · simp [akeys]
    · intro d hd
      simp only [akeys, List.map_append, List.mem_append, List.map_cons]
      push_neg
      refine ⟨hdisj d (List.mem_cons_of_mem _ hd), ?_⟩
      simp only [List.map_nil, List.mem_singleton]
      intro he
      exact hnd.1 (he ▸ hd)

theorem akeys_dict_build (cids : List String) (f : String → String)
    (h : cids.Nodup) :
    akeys (cids.foldl (fun m cid => upsert m cid (f cid)) []) = cids := by
  rw [akeys_dict_build_general cids f [] (by simp [akeys]) h]
  rfl

theorem alookup_fold_not_mem (l : List Folder) (x : String)
    (hx : x ∉ idsOf l) :
    ∀ init : List (String × Folder),
      alookup (l.foldl (fun m r => upsert m r.id r) init) x =
        alookup init x := by
  induction l with
  | nil => intro init; rfl
  | cons r0 rest ih =>
    intro init
    simp only [idsOf, List.map_cons, List.mem_cons] at hx
    push_neg at hx
    rw [List.foldl_cons, ih (by simpa [idsOf] using hx.2),
      alookup_upsert_ne _ _ _ _ (fun he => hx.1 he.symm)]

theorem alookup_fold_self :
    ∀ (l : List Folder) (init : List (String × Folder)),
      (idsOf l).Nodup → ∀ r ∈ l,
      alookup (l.foldl (fun m r => upsert m r.id r) init) r.id = some r := by
  intro l
  induction l with
  | nil => intro init _ r hr; cases hr
  | cons r0 rest ih =>
    intro init hnd r hr
    rw [idsOf, List.map_cons, List.nodup_cons] at hnd
    rw [List.foldl_cons]
    rcases List.mem_cons.mp hr with rfl | hr'
    · rw [alookup_fold_not_mem rest r.id (by simpa [idsOf] using hnd.1) _,
        alookup_upsert_self]
    · exact ih (upsert init r0.id r0) hnd.2 r hr'

theorem alookup_idToFolder_self {l : List Folder} (h : (idsOf l).Nodup)
    {r : Folder} (hr : r ∈ l) : alookup (idToFolder l) r.id = some r :=
  alookup_fold_self l [] h r hr

theorem singleParent_record_nodup {fd : List Folder} (hsp : SingleParent fd) :
    ∀ r ∈ fd, (r.childIds.getD []).Nodup := by
  intro r hr
  exact (List.nodup_flatten.mp hsp).1 _
    (List.mem_map_of_mem (fun r : Folder => r.childIds.getD []) hr)

theorem idsOf_out0 (fd : List Folder) :
    idsOf (add_child_kv (add_parent_kv fd)) = idsOf fd := by
  rw [idsOf_add_child_kv, idsOf_of_strip (add_parent_kv_stripParent fd)]

theorem i2f_none (fd : List Folder) {x : String}
    (hl : alookup (idToFolder (add_child_kv (add_parent_kv fd))) x = none) :
    x ∉ idsOf fd := by
  have h := hasKey_idToFolder (add_child_kv (add_parent_kv fd)) x
  rw [hasKey, hl] at h
  rw [idsOf_out0] at h
  intro hmem
  rw [decide_eq_true hmem] at h
  cases h

theorem i2f_char (fd : List Folder)
    (hsp : SingleParent fd) {x : String} {rx0 : Folder}
    (hl : alookup (idToFolder (add_child_kv (add_parent_kv fd))) x = some rx0) :
    ∃ rf ∈ fd, rf.id = x ∧ akeys (rx0.child.getD []) = rf.childIds.getD [] := by
  obtain ⟨hm, hid⟩ := alookup_idToFolder _ x rx0 hl
  rw [add_child_kv] at hm
  obtain ⟨r1, hr1, heq⟩ := List.mem_map.mp hm
  obtain ⟨rf, hrf, hstrip⟩ := mem_of_strip (add_parent_kv_stripParent fd) hr1
  have hidf : rf.id = r1.id := congrArg (fun t => t.1) hstrip
  have hcidf : rf.childIds = r1.childIds := congrArg (fun t => t.2.2.1) hstrip
  have hnod : (r1.childIds.getD []).Nodup := by
    rw [← hcidf]
    exact singleParent_record_nodup hsp rf hrf
  refine ⟨rf, hrf, ?_, ?_⟩
  · rw [hidf, ← hid, ← heq]
  · rw [← heq]
    show akeys ((some ((r1.childIds.getD []).foldl
      (fun m cid => upsert m cid
        ((alookup (idToTitle (add_parent_kv fd)) cid).getD "")) [])).getD []) =
      rf.childIds.getD []
    rw [Option.getD_some, akeys_dict_build _ _ hnod, hcidf]

theorem edge_iff_child_key (fd : List Folder) (hids : (idsOf fd).Nodup)
    (hsp : SingleParent fd) {x : String} {rx0 : Folder}
    (hl : alookup (idToFolder (add_child_kv (add_parent_kv fd))) x = some rx0) :
    ∀ c, edgeTo fd x c ↔
      (c ∈ akeys (rx0.child.getD []) ∧ c ∈ idsOf fd) := by
  obtain ⟨rf, hrf, hrfid, hkeys⟩ := i2f_char fd hsp hl
  intro c
  constructor
  · rintro ⟨⟨r, hr, hid, hc⟩, hcids⟩
    have hre : r = rf := eq_of_mem_of_id hids hr hrf (by rw [hid, hrfid])
    subst hre
    rw [hkeys]
    exact ⟨hc, hcids⟩
  · rintro ⟨hc, hcids⟩
    refine ⟨⟨rf, hrf, hrfid, ?_⟩, hcids⟩
    rw [← hkeys]
    exact hc

/-- On a single-parent acyclic record set, `assign_level` run from `x` at
base level `k` writes level `k + j` to exactly the ids at distance `j` from
`x`, and leaves every other id's entry unchanged. -/
theorem assign_level_exact (fd : List Folder) (hids : (idsOf fd).Nodup)
    (hsp : SingleParent fd) (hacyc : AcyclicChildGraph fd) :
    ∀ (fuel : Nat) (x : String) (k : Nat) (lv res : List (String × Nat)),
      assign_level (idToFolder (add_child_kv (add_parent_kv fd)))
        fuel x k lv = some res →
      (∀ y j, PathLen fd x y j → alookup res y = some (k + j)) ∧
      (∀ y, (¬ ∃ j, PathLen fd x y j) → alookup res y = alookup lv y) := by
  intro fuel
  induction fuel with
  | zero => intro x k lv res h; exact absurd h (by simp [assign_level])
  | succ fuel ih =>
    intro x k lv res h
    rw [assign_level] at h
    rcases hl : alookup (idToFolder (add_child_kv (add_parent_kv fd))) x
      with _ | rx0 <;> rw [hl] at h
    · replace h : some (upsert lv x k) = some res := h
      cases h
      constructor
      · intro y j hp
        cases j with
        | zero =>
          cases pathLen_zero hp
          rw [Nat.add_zero, alookup_upsert_self]
        | succ j =>
          obtain ⟨c, hc, _⟩ := pathLen_first_edge hp
          obtain ⟨⟨r, hr, hid, _⟩, _⟩ := hc
          exact absurd (hid ▸ List.mem_map_of_mem Folder.id hr) (i2f_none fd hl)
      · intro y hny
        have hxy : x ≠ y := fun he => hny ⟨0, he ▸ PathLen.refl x⟩
        exact alookup_upsert_ne _ _ _ _ hxy
    · replace h : (akeys (rx0.child.getD [])).foldlM (fun acc cid =>
          if hasKey (idToFolder (add_child_kv (add_parent_kv fd))) cid
          then assign_level (idToFolder (add_child_kv (add_parent_kv fd)))
            fuel cid (k + 1) acc
          else pure acc) (upsert lv x k) = some res := h
      have hedgeiff := edge_iff_child_key fd hids hsp hl
      have hcsnd : (akeys (rx0.child.getD [])).Nodup := by
        obtain ⟨rf, hrf, _, hkeys⟩ := i2f_char fd hsp hl
        rw [hkeys]
        exact singleParent_record_nodup hsp rf hrf
      have inner : ∀ (cs2 : List String), cs2.Nodup →
          (∀ c ∈ cs2, c ∈ akeys (rx0.child.getD [])) →
          ∀ (acc res : List (String × Nat)),
            (cs2.foldlM (fun acc cid =>
              if hasKey (idToFolder (add_child_kv (add_parent_kv fd))) cid
              then assign_level (idToFolder (add_child_kv (add_parent_kv fd)))
                fuel cid (k + 1) acc
              else pure acc) acc) = some res →
            (∀ c ∈ cs2, c ∈ idsOf fd → ∀ y j, PathLen fd c y j →
              alookup res y = some (k + 1 + j)) ∧
            (∀ y, (¬ ∃ c ∈ cs2, c ∈ idsOf fd ∧ ∃ j, PathLen fd c y j) →
              alookup res y = alookup acc y) := by
        intro cs2
        induction cs2 with
        | nil =>
          intro _ _ acc res hfold
          replace hfold : some acc = some res := hfold
          cases hfold
          exact ⟨fun c hc => absurd hc (List.not_mem_nil c), fun y _ => rfl⟩
        | cons c rest ihc =>
          intro hnd hsub acc res hfold
          rw [List.nodup_cons] at hnd
          rw [List.foldlM_cons] at hfold
          by_cases hkc : hasKey
              (idToFolder (add_child_kv (add_parent_kv fd))) c = true
          · simp only [hkc, if_true] at hfold
            rcases ha : assign_level
                (idToFolder (add_child_kv (add_parent_kv fd)))
                fuel c (k + 1) acc with _ | acc1 <;> rw [ha] at hfold
            · exact Option.noConfusion hfold
            · replace hfold : rest.foldlM (fun acc cid =>
                  if hasKey (idToFolder (add_child_kv (add_parent_kv fd))) cid
                  then assign_level
                    (idToFolder (add_child_kv (add_parent_kv fd)))
                    fuel cid (k + 1) acc
                  else pure acc) acc1 = some res := hfold
              have hM := ih c (k + 1) acc acc1 ha
              have hIH := ihc hnd.2
                (fun d hd => hsub d (List.mem_cons_of_mem _ hd)) acc1 res hfold
              have hcid : c ∈ idsOf fd := by
                rw [hasKey_idToFolder, idsOf_out0] at hkc
                exact of_decide_eq_true hkc
              have hedgec : edgeTo fd x c :=
                (hedgeiff c).mpr ⟨hsub c (List.mem_cons_self _ _), hcid⟩
              constructor
              · intro c' hc' hc'ids y j hp
                rcases List.mem_cons.mp hc' with rfl | hc'rest
                · have hnorest : ¬ ∃ d ∈ rest, d ∈ idsOf fd ∧
                      ∃ j', PathLen fd d y j' := by
                    rintro ⟨d, hdrest, hdids, j', hp'⟩
                    have hdne : c' ≠ d := fun he => hnd.1 (he ▸ hdrest)
                    have hedged : edgeTo fd x d := (hedgeiff d).mpr
                      ⟨hsub d (List.mem_cons_of_mem _ hdrest), hdids⟩
                    exact sibling_subtree_disjoint hsp hacyc hedgec hedged
                      hdne ⟨j, hp⟩ ⟨j', hp'⟩
                  rw [hIH.2 y hnorest]
                  exact hM.1 y j hp
                · exact hIH.1 c' hc'rest hc'ids y j hp
              · intro y hny
                have hnc : ¬ ∃ j, PathLen fd c y j := fun hj =>
                  hny ⟨c, List.mem_cons_self _ _, hcid, hj⟩
                rw [hIH.2 y (by
                  rintro ⟨d, hd, hdids, hpd⟩
                  exact hny ⟨d, List.mem_cons_of_mem _ hd, hdids, hpd⟩)]
                exact hM.2 y hnc
          · simp only [hkc, Bool.false_eq_true, if_false] at hfold
            replace hfold : rest.foldlM (fun acc cid =>
                if hasKey (idToFolder (add_child_kv (add_parent_kv fd))) cid
                then assign_level
                  (idToFolder (add_child_kv (add_parent_kv fd)))
                  fuel cid (k + 1) acc
                else pure acc) acc = some res := hfold
            have hIH := ihc hnd.2
              (fun d hd => hsub d (List.mem_cons_of_mem _ hd)) acc res hfold
            constructor
            · intro c' hc' hc'ids y j hp
              rcases List.mem_cons.mp hc' with rfl | hc'rest
              · exfalso
                rw [hasKey_idToFolder, idsOf_out0] at hkc
                exact hkc (decide_eq_true hc'ids)
              · exact hIH.1 c' hc'rest hc'ids y j hp
            · intro y hny
              exact hIH.2 y (by
                rintro ⟨d, hd, hdids, hpd⟩
                exact hny ⟨d, List.mem_cons_of_mem _ hd, hdids, hpd⟩)
      obtain ⟨P1, P2⟩ := inner (akeys (rx0.child.getD [])) hcsnd
        (fun _ hc => hc) _ res h
      constructor
      · intro y j hp
        cases j with
        | zero =>
          cases pathLen_zero hp
          have hnone : ¬ ∃ c ∈ akeys (rx0.child.getD []), c ∈ idsOf fd ∧
              ∃ j', PathLen fd c x j' := by
            rintro ⟨c, hcm, hcids, j', hp'⟩
            have hedgec := (hedgeiff c).mpr ⟨hcm, hcids⟩
            exact absurd (reachPlus_of_pathLen (pathLen_prepend hedgec hp'))
              (hacyc x)
          rw [P2 x hnone, Nat.add_zero, alookup_upsert_self]
        | succ j =>
          obtain ⟨c, hec, hpc⟩ := pathLen_first_edge hp
          obtain ⟨hccs, hcids⟩ := (hedgeiff c).mp hec
          rw [show k + (j + 1) = k + 1 + j by omega]
          exact P1 c hccs hcids y j hpc
      · intro y hny
        have hnone : ¬ ∃ c ∈ akeys (rx0.child.getD []), c ∈ idsOf fd ∧
            ∃ j, PathLen fd c y j := by
          rintro ⟨c, hcm, hcids, j, hpj⟩
          exact hny ⟨j + 1, pathLen_prepend ((hedgeiff c).mpr ⟨hcm, hcids⟩) hpj⟩
        rw [P2 y hnone]
        have hxy : x ≠ y := fun he => hny ⟨0, he ▸ PathLen.refl x⟩
        exact alookup_upsert_ne _ _ _ _ hxy

/-- A built record's `parent` is truthy exactly when its id is referenced as
somebody's child. -/
theorem out0_parent_char (fd : List Folder) (hids : (idsOf fd).Nodup)
    (hsp : SingleParent fd) (hfresh : ∀ r ∈ fd, r.parent = none)
    (hne : ∀ r ∈ fd, r.id ≠ "") :
    ∀ r0 ∈ add_child_kv (add_parent_kv fd),
      (pyTruthyDict r0.parent = true ↔
        ∃ rp ∈ fd, r0.id ∈ rp.childIds.getD []) := by
  intro r0 hr0
  rw [add_child_kv] at hr0
  obtain ⟨r1, hr1, heq⟩ := List.mem_map.mp hr0
  have hpar : r0.parent = r1.parent := by rw [← heq]
  have hid : r0.id = r1.id := by rw [← heq]
  rw [hpar, hid]
  exact add_parent_kv_parent_char fd hids hsp hfresh hne r1 hr1

/-- A built record with falsy `parent` is a root of the child-reference
graph. -/
theorem out0_falsy_root (fd : List Folder) (hids : (idsOf fd).Nodup)
    (hsp : SingleParent fd) (hfresh : ∀ r ∈ fd, r.parent = none)
    (hne : ∀ r ∈ fd, r.id ≠ "") :
    ∀ r0 ∈ add_child_kv (add_parent_kv fd),
      pyTruthyDict r0.parent = false → IsRootId fd r0.id := by
  intro r0 hr0 hfalsy
  have hchar := out0_parent_char fd hids hsp hfresh hne r0 hr0
  refine ⟨?_, ?_⟩
  · have : r0.id ∈ idsOf (add_child_kv (add_parent_kv fd)) :=
      List.mem_map_of_mem Folder.id hr0
    rwa [idsOf_out0] at this
  · intro p hedge
    obtain ⟨⟨rp, hrp, _, hc⟩, _⟩ := hedge
    have : pyTruthyDict r0.parent = true := hchar.mpr ⟨rp, hrp, hc⟩
    rw [hfalsy] at this
    cases this

/-- The root loop of `add_level` writes, for every falsy-parent (root)
record, level `j` to every id at distance `j` below it, and nothing else. -/
theorem add_level_fold_exact (fd : List Folder) (hids : (idsOf fd).Nodup)
    (hsp : SingleParent fd) (hacyc : AcyclicChildGraph fd)
    (hfresh : ∀ r ∈ fd, r.parent = none) (hne : ∀ r ∈ fd, r.id ≠ "")
    (fuel : Nat) :
    ∀ (rs : List Folder),
      (∀ r ∈ rs, r ∈ add_child_kv (add_parent_kv fd)) →
      (rs.map Folder.id).Nodup →
      ∀ (lv0 lvres : List (String × Nat)),
      (rs.foldlM (fun lv r =>
        if pyTruthyDict r.parent then pure lv
        else assign_level (idToFolder (add_child_kv (add_parent_kv fd)))
          fuel r.id 0 lv) lv0) = some lvres →
      (∀ r ∈ rs, pyTruthyDict r.parent = false →
        ∀ y j, PathLen fd r.id y j → alookup lvres y = some j) ∧
      (∀ y, (¬ ∃ r ∈ rs, pyTruthyDict r.parent = false ∧
          ∃ j, PathLen fd r.id y j) →
        alookup lvres y = alookup lv0 y) := by
  intro rs
  induction rs with
  | nil =>
    intro _ _ lv0 lvres h
    replace h : some lv0 = some lvres := h
    cases h
    exact ⟨fun r hr => absurd hr (List.not_mem_nil r), fun y _ => rfl⟩
  | cons r0 rest ih =>
    intro hmem hnd lv0 lvres h
    rw [List.map_cons, List.nodup_cons] at hnd
    rw [List.foldlM_cons] at h
    by_cases hp0 : pyTruthyDict r0.parent = true
    · simp only [hp0, if_true] at h
      replace h : rest.foldlM (fun lv r =>
          if pyTruthyDict r.parent then pure lv
          else assign_level (idToFolder (add_child_kv (add_parent_kv fd)))
            fuel r.id 0 lv) lv0 = some lvres := h
      have hIH := ih (fun r hr => hmem r (List.mem_cons_of_mem _ hr))
        hnd.2 lv0 lvres h
      constructor
      · intro r hr hfr y j hpath
        rcases List.mem_cons.mp hr with rfl | hr'
        · rw [hp0] at hfr; cases hfr
        · exact hIH.1 r hr' hfr y j hpath
      · intro y hny
        exact hIH.2 y (by
          rintro ⟨r, hr, hfr, hpr⟩
          exact hny ⟨r, List.mem_cons_of_mem _ hr, hfr, hpr⟩)
    · simp only [hp0, Bool.false_eq_true, if_false] at h
      have hfr0 : pyTruthyDict r0.parent = false := Bool.eq_false_iff.mpr hp0
      have hroot0 : IsRootId fd r0.id :=
        out0_falsy_root fd hids hsp hfresh hne r0
          (hmem r0 (List.mem_cons_self _ _)) hfr0
      rcases ha : assign_level (idToFolder (add_child_kv (add_parent_kv fd)))
          fuel r0.id 0 lv0 with _ | lv1 <;> rw [ha] at h
      · exact Option.noConfusion h
      · replace h : rest.foldlM (fun lv r =>
            if pyTruthyDict r.parent then pure lv
            else assign_level (idToFolder (add_child_kv (add_parent_kv fd)))
              fuel r.id 0 lv) lv1 = some lvres := h
        have hM := assign_level_exact fd hids hsp hacyc fuel r0.id 0 lv0 lv1 ha
        have hIH := ih (fun r hr => hmem r (List.mem_cons_of_mem _ hr))
          hnd.2 lv1 lvres h
        constructor
        · intro r hr hfr y j hpath
          rcases List.mem_cons.mp hr with rfl | hr'
          · have hnorest : ¬ ∃ r' ∈ rest, pyTruthyDict r'.parent = false ∧
                ∃ j', PathLen fd r'.id y j' := by
              rintro ⟨r', hr', hfr', j', hp'⟩
              have hroot' : IsRootId fd r'.id :=
                out0_falsy_root fd hids hsp hfresh hne r'
                  (hmem r' (List.mem_cons_of_mem _ hr')) hfr'
              have : r.id = r'.id := root_reach_unique hsp hroot0 hroot'
                ⟨j, hpath⟩ ⟨j', hp'⟩
              exact hnd.1 (this ▸ List.mem_map_of_mem Folder.id hr')
            rw [hIH.2 y hnorest]
            have := hM.1 y j hpath
            rwa [Nat.zero_add] at this
          · exact hIH.1 r hr' hfr y j hpath
        · intro y hny
          have hnr0 : ¬ ∃ j, PathLen fd r0.id y j := fun hj =>
            hny ⟨r0, List.mem_cons_self _ _, hfr0, hj⟩
          rw [hIH.2 y (by
            rintro ⟨r', hr', hfr', hpr'⟩
            exact hny ⟨r', List.mem_cons_of_mem _ hr', hfr', hpr'⟩)]
          exact hM.2 y hnr0

/-- C2, amended: on a record set with distinct nonempty ids, an acyclic
child-reference graph, and no id referenced as a child more than once (a
single-parent forest), the full hierarchy build satisfies the level
invariant: every child edge reachable from a root increments the level by
one, and every falsy-parent (root) record has level 0. -/
theorem c2_forest_level_invariant (fd : List Folder) (fuel : Nat)
    (out : List Folder)
    (hids : (idsOf fd).Nodup)
    (hne : ∀ r ∈ fd, r.id ≠ "")
    (hfresh : ∀ r ∈ fd, r.level = none ∧ r.parent = none)
    (hsp : SingleParent fd)
    (hacyc : AcyclicChildGraph fd)
    (hrun : build_hierarchy fuel fd = some out) :
    LevelInvariant fd out := by
  rw [build_hierarchy] at hrun
  obtain ⟨lv, hlv, hout⟩ := add_level_elim fuel _ out hrun
  have hout0ids : (idsOf (add_child_kv (add_parent_kv fd))).Nodup := by
    rw [idsOf_out0]
    exact hids
  obtain ⟨L1, L2⟩ := add_level_fold_exact fd hids hsp hacyc
    (fun r hr => (hfresh r hr).2) hne fuel
    (add_child_kv (add_parent_kv fd)) (fun _ hr => hr) hout0ids [] lv hlv
  have hupd_id : ∀ r : Folder,
      (match alookup lv r.id with
       | some n => { r with level := some n }
       | none => r).id = r.id := by
    intro r
    cases alookup lv r.id <;> rfl
  have hupd_parent : ∀ r : Folder,
      (match alookup lv r.id with
       | some n => { r with level := some n }
       | none => r).parent = r.parent := by
    intro r
    cases alookup lv r.id <;> rfl
  have hupd_level : ∀ (r : Folder) (n : Nat), alookup lv r.id = some n →
      (match alookup lv r.id with
       | some n => { r with level := some n }
       | none => r).level = some n := by
    intro r n hn
    rw [hn]
  constructor
  · intro p c rp rc hedge hreach hrp hrc hrpid hrcid
    obtain ⟨rt, hrtroot, hrtreach⟩ := hreach
    obtain ⟨k, hkpath⟩ := reachStar_iff_pathLen.mp hrtreach
    have hrtmem : rt ∈ idsOf (add_child_kv (add_parent_kv fd)) := by
      rw [idsOf_out0]
      exact hrtroot.1
    obtain ⟨rr, hrr, hrrid⟩ := List.mem_map.mp hrtmem
    have hrrfalsy : pyTruthyDict rr.parent = false := by
      by_cases hb : pyTruthyDict rr.parent = true
      · exfalso
        obtain ⟨rpr, hm, hc⟩ := (out0_parent_char fd hids hsp
          (fun r hr => (hfresh r hr).2) hne rr hrr).mp hb
        exact hrtroot.2 rpr.id ⟨⟨rpr, hm, rfl, hrrid ▸ hc⟩, hrtroot.1⟩
      · exact Bool.eq_false_iff.mpr hb
    have hplv : alookup lv p = some k :=
      L1 rr hrr hrrfalsy p k (by rw [hrrid]; exact hkpath)
    have hclv : alookup lv c = some (k + 1) :=
      L1 rr hrr hrrfalsy c (k + 1) (by rw [hrrid]; exact .step hkpath hedge)
    rw [hout] at hrp hrc
    obtain ⟨r0p, hr0p, hfp⟩ := List.mem_map.mp hrp
    obtain ⟨r0c, hr0c, hfc⟩ := List.mem_map.mp hrc
    refine ⟨k, ?_, ?_⟩
    · have hpid : r0p.id = p := by rw [← hrpid, ← hfp, hupd_id]
      rw [← hfp]
      exact hupd_level r0p k (by rw [hpid]; exact hplv)
    · have hcid : r0c.id = c := by rw [← hrcid, ← hfc, hupd_id]
      rw [← hfc]
      exact hupd_level r0c (k + 1) (by rw [hcid]; exact hclv)
  · intro r hr hfalsy
    rw [hout] at hr
    obtain ⟨r0, hr0, hfr⟩ := List.mem_map.mp hr
    have hfalsy0 : pyTruthyDict r0.parent = false := by
      rw [← hupd_parent r0, hfr]
      exact hfalsy
    have h0 : alookup lv r0.id = some 0 :=
      L1 r0 hr0 hfalsy0 r0.id 0 (.refl r0.id)
    rw [← hfr]
    exact hupd_level r0 0 h0

/-- Witness for the amended C2 at a concrete two-record forest E -> F. -/
theorem c2_forest_level_invariant_witness :
    LevelInvariant
      [⟨"E", "te", some ["F"], none, none, none⟩,
       ⟨"F", "tf", some [], none, none, none⟩]
      [⟨"E", "te", none, none, some [("F", "tf")], some 0⟩,
       ⟨"F", "tf", none, some [("E", "te")], some [], some 1⟩] := by
  refine c2_forest_level_invariant
    [⟨"E", "te", some ["F"], none, none, none⟩,
     ⟨"F", "tf", some [], none, none, none⟩] 10
    [⟨"E", "te", none, none, some [("F", "tf")], some 0⟩,
     ⟨"F", "tf", none, some [("E", "te")], some [], some 1⟩]
    (by decide) (by decide) (by decide)
    (by unfold SingleParent; decide)
    (acyclic_of_rank (fun x => if x = "E" then 0 else 1) ?_) (by decide)
  intro p c h
  obtain ⟨⟨r, hr, hid, hc⟩, _⟩ := h
  subst hid
  simp only [List.mem_cons, List.not_mem_nil, or_false] at hr
  rcases hr with rfl | rfl
  · simp only [Option.getD_some] at hc
    rcases List.mem_singleton.mp hc with rfl
    decide
  · simp only [Option.getD_some] at hc
    cases hc

/-- C10, counterexample: the dictionary with one key whose value is an empty
dict satisfies the claim's key/value conditions, but `flatten_json` drops it
entirely, so the round trip returns the empty dict instead of the input. -/
theorem c10_counterexample :
    goodObj "_".data [("a".data, JVal.obj [])] = true ∧
    flatten_json [("a".data, JVal.obj [])] [] "_".data [] = [] ∧
    unflatten_json (flatten_json [("a".data, JVal.obj [])] [] "_".data [])
      "_".data = some (JVal.obj []) ∧
    JVal.obj [] ≠ JVal.obj [("a".data, JVal.obj [])] := by
  have hf : flatten_json [("a".data, JVal.obj [])] [] "_".data [] = [] := by
    simp [flatten_json, flattenItems, aupdate]
  refine ⟨rfl, hf, ?_, by simp⟩
  rw [hf]
  rfl

theorem digitChar_isDigit {k : Nat} (h : k < 10) :
    (Nat.digitChar k).isDigit = true := by
  interval_cases k <;> decide

theorem digitChar_toNat {k : Nat} (h : k < 10) :
    (Nat.digitChar k).toNat - '0'.toNat = k := by
  interval_cases k <;> decide

theorem natRepr_all_digits (n : Nat) : ∀ d ∈ natRepr n, d.isDigit = true := by
  intro d hd
  rw [natRepr] at hd
  by_cases h : n = 0
  · rw [if_pos h] at hd
    cases List.mem_singleton.mp hd
    decide
  · rw [if_neg h] at hd
    rw [List.mem_reverse] at hd
    obtain ⟨k, hk, rfl⟩ := List.mem_map.mp hd
    exact digitChar_isDigit (Nat.digits_lt_base (by norm_num) hk)

theorem natRepr_ne_nil (n : Nat) : natRepr n ≠ [] := by
  rw [natRepr]
  by_cases h : n = 0
  · rw [if_pos h]
    exact List.cons_ne_nil _ _
  · rw [if_neg h]
    simp only [ne_eq, List.reverse_eq_nil_iff, List.map_eq_nil_iff]
    exact Nat.digits_ne_nil_iff_ne_zero.mpr h

theorem pyIsDigit_natRepr (n : Nat) : pyIsDigit (natRepr n) = true := by
  simp only [pyIsDigit, Bool.and_eq_true, Bool.not_eq_true', List.all_eq_true]
  refine ⟨?_, fun d hd => natRepr_all_digits n d hd⟩
  simpa [List.isEmpty_iff] using natRepr_ne_nil n

theorem not_mem_natRepr {c : Char} (hc : ¬ c.isDigit = true) (n : Nat) :
    c ∉ natRepr n := fun hmem => hc (natRepr_all_digits n c hmem)

theorem pyInt_fold :
    ∀ (ds : List Nat) (a : Nat), (∀ d ∈ ds, d < 10) →
      ((ds.map Nat.digitChar).reverse).foldl
        (fun acc c => 10 * acc + (c.toNat - '0'.toNat)) a =
      Nat.ofDigits 10 ds + a * 10 ^ ds.length := by
  intro ds
  induction ds with
  | nil => intro a _; simp
  | cons d rest ih =>
    intro a hlt
    rw [List.map_cons, List.reverse_cons, List.foldl_append]
    rw [ih a (fun x hx => hlt x (List.mem_cons_of_mem _ hx))]
    simp only [List.foldl_cons, List.foldl_nil]
    rw [digitChar_toNat (hlt d (List.mem_cons_self _ _))]
    rw [Nat.ofDigits_cons]
    simp only [List.length_cons, pow_succ]
    ring

theorem pyInt_natRepr (n : Nat) : pyInt (natRepr n) = n := by
  rw [natRepr]
  by_cases h : n = 0
  · rw [if_pos h, h]
    rfl
  · rw [if_neg h, pyInt]
    rw [pyInt_fold (Nat.digits 10 n) 0
      (fun d hd => Nat.digits_lt_base (by norm_num) hd)]
    simp [Nat.ofDigits_digits]

theorem natRepr_injective {m n : Nat} (h : natRepr m = natRepr n) : m = n := by
  have := congrArg pyInt h
  rwa [pyInt_natRepr, pyInt_natRepr] at this

theorem joinSep_cons (sep p : Str) (q : Str) (ps : List Str) :
    joinSep sep (p :: q :: ps) = p ++ sep ++ joinSep sep (q :: ps) := rfl

theorem pySplitAux_no_sep (c : Char) :
    ∀ (s acc : Str), c ∉ s →
      pySplitAux [c] acc s = [acc.reverse ++ s] := by
  intro s
  induction s with
  | nil => intro acc _; simp [pySplitAux]
  | cons d rest ih =>
    intro acc hc
    rw [List.mem_cons] at hc
    push_neg at hc
    rw [pySplitAux]
    have hpre : List.isPrefixOf [c] (d :: rest) = false := by
      simp [List.isPrefixOf, hc.1]
    rw [hpre]
    simp only [Bool.false_eq_true, if_false]
    rw [ih (d :: acc) hc.2]
    simp

theorem pySplitAux_next_sep (c : Char) :
    ∀ (a acc rest : Str), c ∉ a →
      pySplitAux [c] acc (a ++ c :: rest) =
        (acc.reverse ++ a) :: pySplitAux [c] [] rest := by
  intro a
  induction a with
  | nil =>
    intro acc rest _
    rw [List.nil_append, pySplitAux]
    have hpre : List.isPrefixOf [c] (c :: rest) = true := by
      simp [List.isPrefixOf]
    rw [hpre]
    simp [pySplitAux]
  | cons d a' ih =>
    intro acc rest hc
    rw [List.mem_cons] at hc
    push_neg at hc
    rw [List.cons_append, pySplitAux]
    have hpre : List.isPrefixOf [c] (d :: (a' ++ c :: rest)) = false := by
      simp [List.isPrefixOf, hc.1]
    rw [hpre]
    simp only [Bool.false_eq_true, if_false]
    rw [ih (d :: acc) rest hc.2]
    simp

theorem pySplit_joinSep (c : Char) :
    ∀ (comps : List Str), comps ≠ [] → (∀ p ∈ comps, c ∉ p) →
      pySplit [c] (joinSep [c] comps) = comps := by
  intro comps
  induction comps with
  | nil => intro h _; exact absurd rfl h
  | cons p ps ih =>
    intro _ hc
    cases ps with
    | nil =>
      rw [pySplit]
      show pySplitAux [c] [] p = [p]
      rw [pySplitAux_no_sep c p [] (hc p (List.mem_cons_self _ _))]
      simp
    | cons q ps' =>
      rw [joinSep_cons, pySplit]
      have : p ++ [c] ++ joinSep [c] (q :: ps') =
          p ++ c :: joinSep [c] (q :: ps') := by simp
      rw [this, pySplitAux_next_sep c p [] _ (hc p (List.mem_cons_self _ _))]
      simp only [List.reverse_nil, List.nil_append, List.cons.injEq, true_and]
      rw [show pySplitAux [c] [] (joinSep [c] (q :: ps')) =
        pySplit [c] (joinSep [c] (q :: ps')) from rfl]
      exact ih (List.cons_ne_nil _ _)
        (fun x hx => hc x (List.mem_cons_of_mem _ hx))

theorem mem_infix_singleton {α : Type} {a : α} {l : List α} (h : a ∈ l) :
    [a] <:+: l := by
  obtain ⟨s, t, rfl⟩ := List.append_of_mem h
  exact ⟨s, t, by simp⟩

theorem goodKey_facts {c : Char} {k : Str} (h : goodKey [c] k = true) :
    k ≠ [] ∧ c ∉ k ∧ pyIsDigit k = false := by
  rw [goodKey, Bool.and_eq_true, Bool.and_eq_true] at h
  obtain ⟨⟨h1, h2⟩, h3⟩ := h
  refine ⟨?_, ?_, ?_⟩
  · intro he
    rw [he] at h1
    cases h1
  · intro hmem
    rw [Bool.not_eq_true', decide_eq_false_iff_not] at h2
    exact h2 (mem_infix_singleton hmem)
  · rwa [Bool.not_eq_true'] at h3

theorem tightObj_cons {c : Char} {k : Str} {v : JVal}
    {rest : List (Str × JVal)} (h : tightObj [c] ((k, v) :: rest) = true) :
    goodKey [c] k = true ∧ hasKey rest k = false ∧ tightVal [c] v = true ∧
      tightObj [c] rest = true := by
  rw [show tightObj [c] ((k, v) :: rest) =
    (goodKey [c] k && !(hasKey rest k) && tightVal [c] v &&
      tightObj [c] rest) from by rw [tightObj]] at h
  simp only [Bool.and_eq_true, Bool.not_eq_true'] at h
  exact ⟨h.1.1.1, h.1.1.2, h.1.2, h.2⟩

theorem tightVal_obj {c : Char} {kvs : List (Str × JVal)}
    (h : tightVal [c] (.obj kvs) = true) :
    kvs ≠ [] ∧ tightObj [c] kvs = true := by
  rw [show tightVal [c] (.obj kvs) =
    (!kvs.isEmpty && tightObj [c] kvs) from by rw [tightVal]] at h
  simp only [Bool.and_eq_true, Bool.not_eq_true'] at h
  refine ⟨?_, h.2⟩
  intro he
  rw [he] at h
  cases h.1

theorem tightVal_arr {c : Char} {items : List JVal}
    (h : tightVal [c] (.arr items) = true) :
    items ≠ [] ∧ (tightArrObjs [c] items = true ∨
      items.all JVal.isScalar = true) := by
  rw [show tightVal [c] (.arr items) =
    (!items.isEmpty && (tightArrObjs [c] items || items.all JVal.isScalar))
    from by rw [tightVal]] at h
  simp only [Bool.and_eq_true, Bool.not_eq_true', Bool.or_eq_true] at h
  refine ⟨?_, h.2⟩
  intro he
  rw [he] at h
  cases h.1

theorem tightArrObjs_all_isObj {c : Char} :
    ∀ items : List JVal, tightArrObjs [c] items = true →
      items.all JVal.isObj = true := by
  intro items
  induction items with
  | nil => intro _; rfl
  | cons it rest ih =>
    intro h
    cases it with
    | obj kvs =>
      rw [show tightArrObjs [c] (JVal.obj kvs :: rest) =
        (!kvs.isEmpty && tightObj [c] kvs && tightArrObjs [c] rest)
        from by rw [tightArrObjs]] at h
      simp only [Bool.and_eq_true] at h
      simp only [List.all_cons, Bool.and_eq_true]
      exact ⟨rfl, ih h.2⟩
    | scalar s => simp [tightArrObjs] at h
    | arr its => simp [tightArrObjs] at h
    | null => simp [tightArrObjs] at h

theorem tightArrObjs_cons_obj {c : Char} {kvs : List (Str × JVal)}
    {rest : List JVal} (h : tightArrObjs [c] (.obj kvs :: rest) = true) :
    kvs ≠ [] ∧ tightObj [c] kvs = true ∧ tightArrObjs [c] rest = true := by
  rw [show tightArrObjs [c] (JVal.obj kvs :: rest) =
    (!kvs.isEmpty && tightObj [c] kvs && tightArrObjs [c] rest)
    from by rw [tightArrObjs]] at h
  simp only [Bool.and_eq_true, Bool.not_eq_true'] at h
  refine ⟨?_, h.1.2, h.2⟩
  intro he
  rw [he] at h
  cases h.1.1

theorem all_scalar_not_all_isObj {items : List JVal} (hne : items ≠ [])
    (h : items.all JVal.isScalar = true) : items.all JVal.isObj = false := by
  cases items with
  | nil => exact absurd rfl hne
  | cons it rest =>
    rw [List.all_cons, Bool.and_eq_true] at h
    cases it with
    | scalar s => simp [List.all_cons, JVal.isObj]
    | obj kvs => cases h.1
    | arr its => cases h.1
    | null => cases h.1

mutual
theorem tpaths_val (c : Char) (hc : ¬ c.isDigit = true) :
    ∀ v : JVal, tightVal [c] v = true →
      (∀ pl ∈ pathsVal v, ∀ comp ∈ pl.1, comp ≠ [] ∧ c ∉ comp) ∧
      ((pathsVal v).map Prod.fst).Nodup ∧ pathsVal v ≠ []
  | .scalar s, _ => by
    refine ⟨?_, ?_, ?_⟩
    · intro pl hpl comp hcomp
      simp only [pathsVal, List.mem_singleton] at hpl
      rw [hpl] at hcomp
      exact absurd hcomp (List.not_mem_nil comp)
    · simp [pathsVal]
    · simp [pathsVal]
  | .obj kvs, ht => by
    obtain ⟨hne, hto⟩ := tightVal_obj ht
    obtain ⟨hmem, hnd, hnee⟩ := tpaths_obj c hc kvs hto
    refine ⟨?_, ?_, ?_⟩
    · intro pl hpl
      simp only [pathsVal] at hpl
      exact (hmem pl hpl).2
    · simp only [pathsVal]
      exact hnd
    · simp only [pathsVal]
      exact hnee hne
  | .arr items, ht => by
    obtain ⟨hne, hcase⟩ := tightVal_arr ht
    rcases hcase with hta | hsc
    · have hobj := tightArrObjs_all_isObj items hta
      obtain ⟨hmem, hnd, hnee⟩ := tpaths_arr c hc items 0 hta
      refine ⟨?_, ?_, ?_⟩
      · intro pl hpl
        simp only [pathsVal, hobj, if_pos] at hpl
        exact (hmem pl hpl).2
      · simp only [pathsVal, hobj, if_pos]
        exact hnd
      · simp only [pathsVal, hobj, if_pos]
        exact hnee hne
    · have hobj := all_scalar_not_all_isObj hne hsc
      refine ⟨?_, ?_, ?_⟩
      · intro pl hpl comp hcomp
        simp only [pathsVal, hobj] at hpl
        simp only [Bool.false_eq_true, if_false, List.mem_singleton] at hpl
        rw [hpl] at hcomp
        exact absurd hcomp (List.not_mem_nil comp)
      · simp [pathsVal, hobj]
      · simp [pathsVal, hobj]
  | .null, ht => by simp [tightVal] at ht

theorem tpaths_obj (c : Char) (hc : ¬ c.isDigit = true) :
    ∀ kvs : List (Str × JVal), tightObj [c] kvs = true →
      (∀ pl ∈ pathsObj kvs,
        (∃ k t, pl.1 = k :: t ∧ goodKey [c] k = true ∧ k ∈ akeys kvs) ∧
        ∀ comp ∈ pl.1, comp ≠ [] ∧ c ∉ comp) ∧
      ((pathsObj kvs).map Prod.fst).Nodup ∧
      (kvs ≠ [] → pathsObj kvs ≠ [])
  | [], _ => by
    refine ⟨?_, ?_, ?_⟩
    · intro pl hpl
      simp [pathsObj] at hpl
    · simp [pathsObj]
    · intro h; exact absurd rfl h
  | (k, v) :: rest, ht => by
    obtain ⟨hk, hnk, hv, hr⟩ := tightObj_cons ht
    obtain ⟨hkne, hkc, _⟩ := goodKey_facts hk
    obtain ⟨Cv, Nv, NEv⟩ := tpaths_val c hc v hv
    obtain ⟨Hr, NodB, _⟩ := tpaths_obj c hc rest hr
    have hsplit : pathsObj ((k, v) :: rest) =
        (pathsVal v).map (fun pv => (k :: pv.1, pv.2)) ++ pathsObj rest := by
      simp [pathsObj]
    refine ⟨?_, ?_, ?_⟩
    · intro pl hpl
      rw [hsplit, List.mem_append] at hpl
      rcases hpl with hpl | hpl
      · obtain ⟨pv, hpv, rfl⟩ := List.mem_map.mp hpl
        refine ⟨⟨k, pv.1, rfl, hk, ?_⟩, ?_⟩
        · simp only [akeys, List.map_cons]
          exact List.mem_cons_self k _
        · intro comp hcomp
          rcases List.mem_cons.mp hcomp with rfl | hcomp
          · exact ⟨hkne, hkc⟩
          · exact Cv pv hpv comp hcomp
      · obtain ⟨⟨k2, t, heq, hg2, hm2⟩, hcomps⟩ := Hr pl hpl
        refine ⟨⟨k2, t, heq, hg2, ?_⟩, hcomps⟩
        simp only [akeys, List.map_cons, List.mem_cons]
        right
        exact hm2
    · rw [hsplit, List.map_append]
      rw [List.nodup_append]
      refine ⟨?_, NodB, ?_⟩
      · rw [show ((pathsVal v).map (fun pv => (k :: pv.1, pv.2))).map Prod.fst =
          ((pathsVal v).map Prod.fst).map (fun p => k :: p) from by
            simp [List.map_map]]
        exact Nv.map (fun a b h => by injection h)
      · intro x hx hx2
        rw [show ((pathsVal v).map (fun pv => (k :: pv.1, pv.2))).map Prod.fst =
          ((pathsVal v).map Prod.fst).map (fun p => k :: p) from by
            simp [List.map_map]] at hx
        obtain ⟨p, _, rfl⟩ := List.mem_map.mp hx
        obtain ⟨pl, hpl, hple⟩ := List.mem_map.mp hx2
        obtain ⟨⟨k2, t, heq, _, hm2⟩, _⟩ := Hr pl hpl
        rw [heq] at hple
        have hkk : k2 = k := by
          injection hple with h1 h2
        have hknotin : k ∉ akeys rest := by
          intro hm
          rw [← hasKey_eq_mem_akeys, hnk] at hm
          cases hm
        exact absurd (hkk ▸ hm2) hknotin
    · intro _
      rw [hsplit]
      intro habs
      rcases List.append_eq_nil.mp habs with ⟨h1, _⟩
      exact NEv (List.map_eq_nil_iff.mp h1)

theorem tpaths_arr (c : Char) (hc : ¬ c.isDigit = true) :
    ∀ (items : List JVal) (idx : Nat), tightArrObjs [c] items = true →
      (∀ pl ∈ pathsArr items idx,
        (∃ i t, pl.1 = natRepr i :: t ∧ idx ≤ i) ∧
        ∀ comp ∈ pl.1, comp ≠ [] ∧ c ∉ comp) ∧
      ((pathsArr items idx).map Prod.fst).Nodup ∧
      (items ≠ [] → pathsArr items idx ≠ [])
  | [], idx, _ => by
    refine ⟨?_, ?_, ?_⟩
    · intro pl hpl
      simp [pathsArr] at hpl
    · simp [pathsArr]
    · intro h; exact absurd rfl h
  | .obj sub :: rest, idx, ht => by
    obtain ⟨hsne, hts, htr⟩ := tightArrObjs_cons_obj ht
    obtain ⟨Hs, Ns, NEs⟩ := tpaths_obj c hc sub hts
    obtain ⟨Hr, NodB, _⟩ := tpaths_arr c hc rest (idx + 1) htr
    have hsplit : pathsArr (JVal.obj sub :: rest) idx =
        (pathsObj sub).map (fun pv => (natRepr idx :: pv.1, pv.2)) ++
          pathsArr rest (idx + 1) := by
      simp [pathsArr]
    refine ⟨?_, ?_, ?_⟩
    · intro pl hpl
      rw [hsplit, List.mem_append] at hpl
      rcases hpl with hpl | hpl
      · obtain ⟨pv, hpv, rfl⟩ := List.mem_map.mp hpl
        refine ⟨⟨idx, pv.1, rfl, le_refl idx⟩, ?_⟩
        intro comp hcomp
        rcases List.mem_cons.mp hcomp with rfl | hcomp
        · exact ⟨natRepr_ne_nil idx, not_mem_natRepr hc idx⟩
        · exact (Hs pv hpv).2 comp hcomp
      · obtain ⟨⟨i, t, heq, hle⟩, hcomps⟩ := Hr pl hpl
        exact ⟨⟨i, t, heq, by omega⟩, hcomps⟩
    · rw [hsplit, List.map_append, List.nodup_append]
      refine ⟨?_, NodB, ?_⟩
      · rw [show ((pathsObj sub).map
            (fun pv => (natRepr idx :: pv.1, pv.2))).map Prod.fst =
          ((pathsObj sub).map Prod.fst).map (fun p => natRepr idx :: p) from by
            simp [List.map_map]]
        exact Ns.map (fun a b h => by injection h)
      · intro x hx hx2
        rw [show ((pathsObj sub).map
            (fun pv => (natRepr idx :: pv.1, pv.2))).map Prod.fst =
          ((pathsObj sub).map Prod.fst).map (fun p => natRepr idx :: p) from by
            simp [List.map_map]] at hx
        obtain ⟨p, _, rfl⟩ := List.mem_map.mp hx
        obtain ⟨pl, hpl, hple⟩ := List.mem_map.mp hx2
        obtain ⟨⟨i, t, heq, hle⟩, _⟩ := Hr pl hpl
        rw [heq] at hple
        have hidx : natRepr i = natRepr idx := by
          injection hple with h1 h2
        have := natRepr_injective hidx
        omega
    · intro _
      rw [hsplit]
      intro habs
      rcases List.append_eq_nil.mp habs with ⟨h1, _⟩
      exact NEs hsne (List.map_eq_nil_iff.mp h1)
  | .scalar s :: rest, idx, ht => by simp [tightArrObjs] at ht
  | .arr its :: rest, idx, ht => by simp [tightArrObjs] at ht
  | .null :: rest, idx, ht => by simp [tightArrObjs] at ht
end

theorem encodeKey_nil_parent (sep : Str) (p : List Str) :
    encodeKey sep [] p = joinSep sep p := by
  simp [encodeKey]

theorem encodeKey_single (sep parent k : Str) :
    encodeKey sep parent [k] =
      (if parent ≠ [] then parent ++ sep ++ k else k) := by
  rw [encodeKey]
  rcases eq_or_ne parent [] with h | h
  · simp [h, joinSep]
  · simp [h, joinSep]

theorem encodeKey_chain (sep parent k : Str) (p : List Str) (hk : k ≠ [])
    (hp : p ≠ []) :
    encodeKey sep parent (k :: p) =
      encodeKey sep (encodeKey sep parent [k]) p := by
  rcases p with _ | ⟨q, qs⟩
  · exact absurd rfl hp
  rw [encodeKey_single]
  rcases eq_or_ne parent [] with hpar | hpar
  · simp only [hpar, ne_eq, not_true_eq_false, if_false, encodeKey, hk,
      not_false_eq_true, if_true]
    rw [joinSep_cons]
  · have hne : parent ++ sep ++ k ≠ [] := by
      intro habs
      rcases List.append_eq_nil.mp habs with ⟨h1, _⟩
      rcases List.append_eq_nil.mp h1 with ⟨h2, _⟩
      exact hpar h2
    simp only [encodeKey, hpar, ne_eq, not_false_eq_true, if_true, hne]
    rw [joinSep_cons]
    simp [List.append_assoc]

theorem upsert_lookup_self {κ α : Type} [DecidableEq κ]
    {m : List (κ × α)} {k : κ} {v : α} (h : alookup m k = some v) :
    upsert m k v = m := by
  induction m with
  | nil => cases h
  | cons kv rest ih =>
    rcases kv with ⟨k', v'⟩
    by_cases hk : k' = k
    · rw [alookup, if_pos hk] at h
      injection h with h
      rw [upsert, if_pos hk, h]
    · rw [alookup, if_neg hk] at h
      rw [upsert, if_neg hk, ih h]

theorem upsert_upsert {κ α : Type} [DecidableEq κ]
    (m : List (κ × α)) (k : κ) (a b : α) :
    upsert (upsert m k a) k b = upsert m k b := by
  induction m with
  | nil => simp [upsert]
  | cons kv rest ih =>
    rcases kv with ⟨k', v'⟩
    by_cases hk : k' = k
    · rw [upsert, if_pos hk, upsert, if_pos hk, upsert, if_pos hk]
    · rw [upsert, if_neg hk, upsert, if_neg hk, upsert, if_neg hk, ih]

theorem hasKey_append {κ α : Type} [DecidableEq κ]
    (a b : List (κ × α)) (k : κ) :
    hasKey (a ++ b) k = (hasKey a k || hasKey b k) := by
  induction a with
  | nil => simp [hasKey, alookup]
  | cons kv rest ih =>
    by_cases h : kv.1 = k
    · simp [hasKey, alookup, h]
    · simpa [hasKey, alookup, h] using ih

theorem aupdate_append {κ α : Type} [DecidableEq κ]
    (d x y : List (κ × α)) :
    aupdate d (x ++ y) = aupdate (aupdate d x) y := by
  rw [aupdate, aupdate, aupdate, List.foldl_append]

theorem aupdate_single {κ α : Type} [DecidableEq κ]
    (d : List (κ × α)) (k : κ) (v : α) :
    aupdate d [(k, v)] = upsert d k v := rfl

theorem aupdate_fresh_nodup {κ α : Type} [DecidableEq κ]
    (l : List (κ × α)) : ∀ acc : List (κ × α),
      (∀ k ∈ akeys l, hasKey acc k = false) → (akeys l).Nodup →
      aupdate acc l = acc ++ l := by
  induction l with
  | nil => intro acc _ _; simp [aupdate]
  | cons kv rest ih =>
    intro acc hfresh hnd
    rcases kv with ⟨k, v⟩
    have hk : hasKey acc k = false := hfresh k (by simp [akeys])
    have hkn : k ∉ akeys acc := by
      intro hm
      rw [← hasKey_eq_mem_akeys, hk] at hm
      cases hm
    have hstep : aupdate acc ((k, v) :: rest) =
        aupdate (upsert acc k v) rest := rfl
    rw [akeys, List.map_cons, List.nodup_cons] at hnd
    rw [hstep, upsert_not_mem acc k v hkn, ih (acc ++ [(k, v)]) ?_ hnd.2,
      List.append_assoc]
    · rfl
    · intro k2 hk2
      rw [hasKey_append]
      have h1 : hasKey acc k2 = false := by
        refine hfresh k2 ?_
        simp only [akeys, List.map_cons, List.mem_cons]
        right
        exact hk2
      have hne : k ≠ k2 := fun he => hnd.1 (he ▸ hk2)
      rw [h1]
      simp [hasKey, alookup, hne]

theorem set_append_len {α : Type} (xs : List α) (a b : α) :
    (xs ++ [a]).set xs.length b = xs ++ [b] := by
  induction xs with
  | nil => rfl
  | cons x t ih => simp [List.set, ih]

theorem getD_append_len {α : Type} (xs : List α) (a d : α) :
    (xs ++ [a]).getD xs.length d = a := by
  induction xs with
  | nil => rfl
  | cons x t ih => simp [ih]

theorem set_getD_self {α : Type} :
    ∀ (xs : List α) (n : Nat) (d : α), n < xs.length →
      xs.set n (xs.getD n d) = xs
  | [], n, d, h => by cases h
  | x :: t, 0, d, _ => rfl
  | x :: t, n + 1, d, h => by
    have := set_getD_self t n d (by simpa using h)
    simpa [List.set] using this

theorem getD_set_self {α : Type} :
    ∀ (xs : List α) (n : Nat) (a d : α), n < xs.length →
      (xs.set n a).getD n d = a
  | [], n, a, d, h => by cases h
  | x :: t, 0, a, d, _ => rfl
  | x :: t, n + 1, a, d, h => by
    have := getD_set_self t n a d (by simpa using h)
    simpa [List.set] using this

theorem getD_lt_irrel {α : Type} :
    ∀ (xs : List α) (n : Nat) (d1 d2 : α), n < xs.length →
      xs.getD n d1 = xs.getD n d2
  | [], n, d1, d2, h => by cases h
  | x :: t, 0, d1, d2, _ => rfl
  | x :: t, n + 1, d1, d2, h => by
    have := getD_lt_irrel t n d1 d2 (by simpa using h)
    simpa using this

theorem padTo_eq_len (xs : List JVal) (pl : JVal) :
    padTo xs xs.length pl = xs ++ [pl] := by
  rw [padTo]
  congr 1
  rw [show xs.length + 1 - xs.length = 1 from by omega]
  rfl

theorem padTo_lt (xs : List JVal) (n : Nat) (pl : JVal) (h : n < xs.length) :
    padTo xs n pl = xs := by
  rw [padTo, show n + 1 - xs.length = 0 from by omega]
  simp

theorem insertMany_nil (d : JVal) : insertMany d [] = some d := rfl

theorem insertMany_cons (d : JVal) (pv : List Str × JVal)
    (l : List (List Str × JVal)) :
    insertMany d (pv :: l) =
      (insertPath d pv.1 pv.2).bind (fun d2 => insertMany d2 l) := by
  rcases h : insertPath d pv.1 pv.2 with _ | d2
  · rw [insertMany, List.foldlM_cons, h]
    rfl
  · rw [insertMany, List.foldlM_cons, h]
    rfl

theorem insertMany_append (x y : List (List Str × JVal)) :
    ∀ d : JVal, insertMany d (x ++ y) =
      (insertMany d x).bind (fun d2 => insertMany d2 y) := by
  induction x with
  | nil =>
    intro d
    rw [List.nil_append, insertMany_nil, Option.some_bind]
  | cons pv t ih =>
    intro d
    rw [List.cons_append, insertMany_cons, insertMany_cons]
    rcases h : insertPath d pv.1 pv.2 with _ | d2
    · rfl
    · rw [Option.some_bind, Option.some_bind, ih]

theorem insertPath_single_obj (acc : List (Str × JVal)) (k : Str) (v : JVal)
    (hk : pyIsDigit k = false) :
    insertPath (.obj acc) [k] v = some (.obj (upsert acc k v)) := by
  simp [insertPath, hk]

theorem insertPath_cons_obj (acc : List (Str × JVal)) (k k2 : Str)
    (ks : List Str) (v : JVal) (hk : pyIsDigit k = false) :
    insertPath (.obj acc) (k :: k2 :: ks) v =
      (insertPath ((alookup acc k).getD
          (if pyIsDigit k2 then JVal.arr [] else JVal.obj []))
        (k2 :: ks) v).bind
        (fun inner => some (.obj (upsert acc k inner))) := by
  rcases h : insertPath ((alookup acc k).getD
      (if pyIsDigit k2 then JVal.arr [] else JVal.obj [])) (k2 :: ks) v
    with _ | inner
  · simp [insertPath, hk, h]
  · simp [insertPath, hk, h]

theorem insertPath_cons_arr (xs : List JVal) (k k2 : Str)
    (ks : List Str) (v : JVal) (hk : pyIsDigit k = true) :
    insertPath (.arr xs) (k :: k2 :: ks) v =
      (insertPath ((padTo xs (pyInt k)
            (if pyIsDigit k2 then JVal.arr [] else JVal.obj [])).getD (pyInt k)
          (if pyIsDigit k2 then JVal.arr [] else JVal.obj []))
        (k2 :: ks) v).bind
        (fun inner => some (.arr ((padTo xs (pyInt k)
          (if pyIsDigit k2 then JVal.arr [] else JVal.obj [])).set (pyInt k)
          inner))) := by
  rcases h : insertPath ((padTo xs (pyInt k)
      (if pyIsDigit k2 then JVal.arr [] else JVal.obj [])).getD (pyInt k)
      (if pyIsDigit k2 then JVal.arr [] else JVal.obj [])) (k2 :: ks) v
    with _ | inner
  · rw [List.getD_eq_getElem?_getD] at h
    simp [insertPath, hk, h]
  · rw [List.getD_eq_getElem?_getD] at h
    simp [insertPath, hk, h]

theorem insertMany_obj_thread :
    ∀ (L : List (List Str × JVal)) (acc : List (Str × JVal)) (k : Str)
      (cur : JVal), pyIsDigit k = false → alookup acc k = some cur →
      (∀ pv ∈ L, pv.1 ≠ []) →
      insertMany (.obj acc) (L.map fun pv => (k :: pv.1, pv.2)) =
        (insertMany cur L).bind
          (fun inner => some (.obj (upsert acc k inner))) := by
  intro L
  induction L with
  | nil =>
    intro acc k cur _ hlook _
    rw [List.map_nil, insertMany_nil, insertMany_nil, Option.some_bind,
      upsert_lookup_self hlook]
  | cons pv L ih =>
    intro acc k cur hdk hlook hne
    rcases hp : pv.1 with _ | ⟨k2, ks⟩
    · exact absurd hp (hne pv (List.mem_cons_self pv L))
    rw [List.map_cons, insertMany_cons]
    simp only [hp]
    rw [insertPath_cons_obj acc k k2 ks pv.2 hdk, hlook, Option.getD_some]
    rw [insertMany_cons, hp]
    rcases h : insertPath cur (k2 :: ks) pv.2 with _ | inner
    · rfl
    · rw [Option.some_bind, Option.some_bind]
      rw [ih (upsert acc k inner) k inner hdk (alookup_upsert_self acc k inner)
        (fun q hq => hne q (List.mem_cons_of_mem pv hq))]
      rcases h2 : insertMany inner L with _ | final
      · simp only [Option.some_bind, h2, Option.none_bind]
      · simp only [Option.some_bind, h2, upsert_upsert]

theorem insertMany_arr_thread :
    ∀ (L : List (List Str × JVal)) (xs : List JVal) (idx : Nat),
      idx < xs.length → (∀ pv ∈ L, pv.1 ≠ []) →
      insertMany (.arr xs) (L.map fun pv => (natRepr idx :: pv.1, pv.2)) =
        (insertMany (xs.getD idx .null) L).bind
          (fun inner => some (.arr (xs.set idx inner))) := by
  intro L
  induction L with
  | nil =>
    intro xs idx hlen _
    rw [List.map_nil, insertMany_nil, insertMany_nil, Option.some_bind,
      set_getD_self xs idx .null hlen]
  | cons pv L ih =>
    intro xs idx hlen hne
    rcases hp : pv.1 with _ | ⟨k2, ks⟩
    · exact absurd hp (hne pv (List.mem_cons_self pv L))
    rw [List.map_cons, insertMany_cons]
    simp only [hp]
    rw [insertPath_cons_arr xs (natRepr idx) k2 ks pv.2 (pyIsDigit_natRepr idx),
      pyInt_natRepr]
    rw [padTo_lt xs idx _ hlen]
    rw [getD_lt_irrel xs idx _ JVal.null hlen]
    rw [insertMany_cons, hp]
    rcases h : insertPath (xs.getD idx JVal.null) (k2 :: ks) pv.2 with _ | inner
    · rfl
    · simp only [Option.some_bind]
      rw [ih (xs.set idx inner) idx (by rw [List.length_set]; exact hlen)
        (fun q hq => hne q (List.mem_cons_of_mem pv hq))]
      rw [getD_set_self xs idx inner JVal.null hlen]
      rcases h2 : insertMany inner L with _ | final
      · simp only [h2, Option.none_bind]
      · simp only [h2, Option.some_bind, List.set_set]

theorem insertMany_obj_fresh (L : List (List Str × JVal))
    (pv0 : List Str × JVal) (acc : List (Str × JVal)) (k k2 : Str)
    (t : List Str) (hdk : pyIsDigit k = false) (hlook : alookup acc k = none)
    (hp0 : pv0.1 = k2 :: t) (hne : ∀ pv ∈ L, pv.1 ≠ []) :
    insertMany (.obj acc) ((pv0 :: L).map fun pv => (k :: pv.1, pv.2)) =
      (insertMany (if pyIsDigit k2 then JVal.arr [] else JVal.obj [])
          (pv0 :: L)).bind
        (fun inner => some (.obj (upsert acc k inner))) := by
  rw [List.map_cons, insertMany_cons]
  simp only [hp0]
  rw [insertPath_cons_obj acc k k2 t pv0.2 hdk, hlook, Option.getD_none]
  rw [insertMany_cons, hp0]
  rcases h : insertPath (if pyIsDigit k2 then JVal.arr [] else JVal.obj [])
      (k2 :: t) pv0.2 with _ | inner
  · rfl
  · simp only [Option.some_bind]
    rw [insertMany_obj_thread L (upsert acc k inner) k inner hdk
      (alookup_upsert_self acc k inner) hne]
    rcases h2 : insertMany inner L with _ | final
    · simp only [h2, Option.none_bind]
    · simp only [h2, Option.some_bind, upsert_upsert]

theorem insertMany_arr_fresh (L : List (List Str × JVal))
    (pv0 : List Str × JVal) (xs : List JVal) (k2 : Str) (t : List Str)
    (hp0 : pv0.1 = k2 :: t) (hne : ∀ pv ∈ L, pv.1 ≠ []) :
    insertMany (.arr xs)
        ((pv0 :: L).map fun pv => (natRepr xs.length :: pv.1, pv.2)) =
      (insertMany (if pyIsDigit k2 then JVal.arr [] else JVal.obj [])
          (pv0 :: L)).bind
        (fun inner => some (.arr (xs ++ [inner]))) := by
  rw [List.map_cons, insertMany_cons]
  simp only [hp0]
  rw [insertPath_cons_arr xs (natRepr xs.length) k2 t pv0.2
    (pyIsDigit_natRepr xs.length), pyInt_natRepr]
  rw [padTo_eq_len]
  rw [getD_append_len]
  rw [insertMany_cons, hp0]
  rcases h : insertPath (if pyIsDigit k2 then JVal.arr [] else JVal.obj [])
      (k2 :: t) pv0.2 with _ | inner
  · rfl
  · simp only [Option.some_bind]
    rw [set_append_len]
    rw [insertMany_arr_thread L (xs ++ [inner]) xs.length (by simp) hne]
    rw [getD_append_len]
    rcases h2 : insertMany inner L with _ | final
    · simp only [h2, Option.none_bind]
    · simp only [h2, Option.some_bind, set_append_len]

theorem alookup_none_of_hasKey_false {κ α : Type} [DecidableEq κ]
    {m : List (κ × α)} {k : κ} (h : hasKey m k = false) :
    alookup m k = none := by
  rcases hl : alookup m k with _ | w
  · rfl
  · rw [hasKey, hl] at h
    cases h

mutual
theorem insertMany_val (c : Char) (hc : ¬ c.isDigit = true) :
    ∀ (v : JVal) (acc : List (Str × JVal)) (k : Str),
      tightVal [c] v = true → pyIsDigit k = false → hasKey acc k = false →
      insertMany (.obj acc) ((pathsVal v).map fun pv => (k :: pv.1, pv.2)) =
        some (.obj (acc ++ [(k, v)]))
  | .scalar s, acc, k, _, hdk, hfr => by
    have hkn : k ∉ akeys acc := by
      intro hm
      rw [← hasKey_eq_mem_akeys, hfr] at hm
      cases hm
    rw [show pathsVal (.scalar s) = [([], JVal.scalar s)] from by
      simp [pathsVal]]
    simp only [List.map_cons, List.map_nil, insertMany_cons,
      insertPath_single_obj acc k (JVal.scalar s) hdk, Option.some_bind,
      insertMany_nil]
    rw [upsert_not_mem acc k _ hkn]
  | .obj kvs, acc, k, ht, hdk, hfr => by
    have hkn : k ∉ akeys acc := by
      intro hm
      rw [← hasKey_eq_mem_akeys, hfr] at hm
      cases hm
    have hlook : alookup acc k = none := alookup_none_of_hasKey_false hfr
    obtain ⟨hne, hto⟩ := tightVal_obj ht
    rw [show pathsVal (.obj kvs) = pathsObj kvs from by simp [pathsVal]]
    obtain ⟨Hs, _, NEs⟩ := tpaths_obj c hc kvs hto
    rcases hL : pathsObj kvs with _ | ⟨pv0, L⟩
    · exact absurd hL (NEs hne)
    obtain ⟨⟨k2, t, hp0, hg2, _⟩, _⟩ := Hs pv0
      (by rw [hL]; exact List.mem_cons_self _ _)
    have hd2 : pyIsDigit k2 = false := (goodKey_facts hg2).2.2
    have hnepaths : ∀ pv ∈ L, pv.1 ≠ [] := by
      intro pv hpv
      obtain ⟨⟨k3, t3, hp3, _, _⟩, _⟩ := Hs pv
        (by rw [hL]; exact List.mem_cons_of_mem _ hpv)
      rw [hp3]
      exact List.cons_ne_nil k3 t3
    rw [insertMany_obj_fresh L pv0 acc k k2 t hdk hlook hp0 hnepaths]
    rw [hd2]
    simp only [Bool.false_eq_true, if_false]
    rw [← hL]
    rw [insertMany_obj c hc kvs [] hto (fun q _ => rfl)]
    simp only [List.nil_append, Option.some_bind]
    rw [upsert_not_mem acc k _ hkn]
  | .arr items, acc, k, ht, hdk, hfr => by
    have hkn : k ∉ akeys acc := by
      intro hm
      rw [← hasKey_eq_mem_akeys, hfr] at hm
      cases hm
    have hlook : alookup acc k = none := alookup_none_of_hasKey_false hfr
    obtain ⟨hne, hcase⟩ := tightVal_arr ht
    rcases hcase with hta | hsc
    · have hobj := tightArrObjs_all_isObj items hta
      rw [show pathsVal (.arr items) = pathsArr items 0 from by
        simp [pathsVal, hobj]]
      obtain ⟨Hs, _, NEs⟩ := tpaths_arr c hc items 0 hta
      rcases hL : pathsArr items 0 with _ | ⟨pv0, L⟩
      · exact absurd hL (NEs hne)
      obtain ⟨⟨i, t, hp0, _⟩, _⟩ := Hs pv0
        (by rw [hL]; exact List.mem_cons_self _ _)
      have hnepaths : ∀ pv ∈ L, pv.1 ≠ [] := by
        intro pv hpv
        obtain ⟨⟨i3, t3, hp3, _⟩, _⟩ := Hs pv
          (by rw [hL]; exact List.mem_cons_of_mem _ hpv)
        rw [hp3]
        exact List.cons_ne_nil _ t3
      rw [insertMany_obj_fresh L pv0 acc k (natRepr i) t hdk hlook hp0
        hnepaths]
      rw [pyIsDigit_natRepr i]
      simp only [if_true]
      rw [← hL]
      rw [insertMany_arr c hc items 0 [] hta rfl]
      simp only [List.nil_append, Option.some_bind]
      rw [upsert_not_mem acc k _ hkn]
    · have hobj := all_scalar_not_all_isObj hne hsc
      rw [show pathsVal (.arr items) = [([], JVal.arr items)] from by
        simp [pathsVal, hobj]]
      simp only [List.map_cons, List.map_nil, insertMany_cons,
        insertPath_single_obj acc k (JVal.arr items) hdk, Option.some_bind,
        insertMany_nil]
      rw [upsert_not_mem acc k _ hkn]
  | .null, acc, k, ht, _, _ => by simp [tightVal] at ht

theorem insertMany_obj (c : Char) (hc : ¬ c.isDigit = true) :
    ∀ (kvs acc : List (Str × JVal)), tightObj [c] kvs = true →
      (∀ k ∈ akeys kvs, hasKey acc k = false) →
      insertMany (.obj acc) (pathsObj kvs) = some (.obj (acc ++ kvs))
  | [], acc, _, _ => by
    rw [show pathsObj [] = ([] : List (List Str × JVal)) from by
      simp [pathsObj]]
    rw [insertMany_nil, List.append_nil]
  | (k, v) :: rest, acc, ht, hfr => by
    obtain ⟨hk, hnk, hv, hr⟩ := tightObj_cons ht
    have hdk : pyIsDigit k = false := (goodKey_facts hk).2.2
    have hsplit : pathsObj ((k, v) :: rest) =
        (pathsVal v).map (fun pv => (k :: pv.1, pv.2)) ++ pathsObj rest := by
      simp [pathsObj]
    have hfr1 : hasKey acc k = false := by
      refine hfr k ?_
      simp only [akeys, List.map_cons]
      exact List.mem_cons_self k _
    have hknotin : k ∉ akeys rest := by
      intro hm
      rw [← hasKey_eq_mem_akeys, hnk] at hm
      cases hm
    have hfr2 : ∀ k2 ∈ akeys rest, hasKey (acc ++ [(k, v)]) k2 = false := by
      intro k2 hk2
      rw [hasKey_append]
      have h1 : hasKey acc k2 = false := by
        refine hfr k2 ?_
        simp only [akeys, List.map_cons, List.mem_cons]
        right
        exact hk2
      have hne2 : k ≠ k2 := fun he => hknotin (he ▸ hk2)
      rw [h1]
      simp [hasKey, alookup, hne2]
    rw [hsplit, insertMany_append]
    rw [insertMany_val c hc v acc k hv hdk hfr1]
    simp only [Option.some_bind]
    rw [insertMany_obj c hc rest (acc ++ [(k, v)]) hr hfr2]
    rw [List.append_assoc]
    rfl

theorem insertMany_arr (c : Char) (hc : ¬ c.isDigit = true) :
    ∀ (items : List JVal) (idx : Nat) (xs : List JVal),
      tightArrObjs [c] items = true → xs.length = idx →
      insertMany (.arr xs) (pathsArr items idx) = some (.arr (xs ++ items))
  | [], idx, xs, _, _ => by
    rw [show pathsArr [] idx = ([] : List (List Str × JVal)) from by
      simp [pathsArr]]
    rw [insertMany_nil, List.append_nil]
  | .obj sub :: rest, idx, xs, ht, hlen => by
    obtain ⟨hsne, hts, htr⟩ := tightArrObjs_cons_obj ht
    have hsplit : pathsArr (JVal.obj sub :: rest) idx =
        (pathsObj sub).map (fun pv => (natRepr idx :: pv.1, pv.2)) ++
          pathsArr rest (idx + 1) := by
      simp [pathsArr]
    rw [hsplit, insertMany_append]
    obtain ⟨Hs, _, NEs⟩ := tpaths_obj c hc sub hts
    rcases hL : pathsObj sub with _ | ⟨pv0, L⟩
    · exact absurd hL (NEs hsne)
    obtain ⟨⟨k2, t, hp0, hg2, _⟩, _⟩ := Hs pv0
      (by rw [hL]; exact List.mem_cons_self _ _)
    have hd2 : pyIsDigit k2 = false := (goodKey_facts hg2).2.2
    have hnepaths : ∀ pv ∈ L, pv.1 ≠ [] := by
      intro pv hpv
      obtain ⟨⟨k3, t3, hp3, _, _⟩, _⟩ := Hs pv
        (by rw [hL]; exact List.mem_cons_of_mem _ hpv)
      rw [hp3]
      exact List.cons_ne_nil k3 t3
    subst hlen
    rw [insertMany_arr_fresh L pv0 xs k2 t hp0 hnepaths]
    rw [hd2]
    simp only [Bool.false_eq_true, if_false]
    rw [← hL]
    rw [insertMany_obj c hc sub [] hts (fun q _ => rfl)]
    simp only [List.nil_append, Option.some_bind]
    rw [insertMany_arr c hc rest (xs.length + 1) (xs ++ [JVal.obj sub]) htr
      (by simp)]
    rw [List.append_assoc]
    rfl
  | .scalar s :: rest, idx, xs, ht, _ => by simp [tightArrObjs] at ht
  | .arr its :: rest, idx, xs, ht, _ => by simp [tightArrObjs] at ht
  | .null :: rest, idx, xs, ht, _ => by simp [tightArrObjs] at ht
end

theorem flattenItems_nil_eq (sep parent : Str) (fl : List (Str × JVal)) :
    flattenItems sep [] [] parent fl = fl := by
  simp [flattenItems]

theorem flattenItems_cons_scalar (sep k : Str) (s : Str)
    (rest : List (Str × JVal)) (parent : Str) (fl : List (Str × JVal)) :
    flattenItems sep [] ((k, .scalar s) :: rest) parent fl =
      flattenItems sep [] rest parent
        (upsert fl (if parent ≠ [] then parent ++ sep ++ k else k)
          (.scalar s)) := by
  simp [flattenItems]

theorem flattenItems_cons_null (sep k : Str)
    (rest : List (Str × JVal)) (parent : Str) (fl : List (Str × JVal)) :
    flattenItems sep [] ((k, .null) :: rest) parent fl =
      flattenItems sep [] rest parent
        (upsert fl (if parent ≠ [] then parent ++ sep ++ k else k)
          .null) := by
  simp [flattenItems]

theorem flattenItems_cons_obj (sep k : Str) (sub rest : List (Str × JVal))
    (parent : Str) (fl : List (Str × JVal)) :
    flattenItems sep [] ((k, .obj sub) :: rest) parent fl =
      flattenItems sep [] rest parent
        (aupdate fl (flattenItems sep [] sub
          (if parent ≠ [] then parent ++ sep ++ k else k) [])) := by
  simp [flattenItems]

theorem flattenItems_cons_arr (sep k : Str) (items : List JVal)
    (rest : List (Str × JVal)) (parent : Str) (fl : List (Str × JVal)) :
    flattenItems sep [] ((k, .arr items) :: rest) parent fl =
      flattenItems sep [] rest parent
        (if items.all JVal.isObj then
          flattenArrItems sep [] items 0
            (if parent ≠ [] then parent ++ sep ++ k else k) fl
         else upsert fl (if parent ≠ [] then parent ++ sep ++ k else k)
           (.arr items)) := by
  simp [flattenItems]

theorem flattenArrItems_nil_eq (sep : Str) (idx : Nat) (newKey : Str)
    (fl : List (Str × JVal)) :
    flattenArrItems sep [] [] idx newKey fl = fl := by
  rw [flattenArrItems]

theorem flattenArrItems_cons_obj (sep : Str) (sub : List (Str × JVal))
    (rest : List JVal) (idx : Nat) (newKey : Str) (fl : List (Str × JVal)) :
    flattenArrItems sep [] (.obj sub :: rest) idx newKey fl =
      flattenArrItems sep [] rest (idx + 1) newKey
        (aupdate fl (flattenItems sep [] sub (newKey ++ sep ++ natRepr idx)
          [])) := by
  rw [flattenArrItems]

theorem encodeKey_inj (c : Char) (parent : Str) {p q : List Str}
    (hp : p ≠ []) (hq : q ≠ []) (hpc : ∀ comp ∈ p, c ∉ comp)
    (hqc : ∀ comp ∈ q, c ∉ comp)
    (h : encodeKey [c] parent p = encodeKey [c] parent q) : p = q := by
  rw [encodeKey, encodeKey] at h
  rcases eq_or_ne parent [] with hpar | hpar
  · simp only [hpar, ne_eq, not_true_eq_false, if_false] at h
    calc p = pySplit [c] (joinSep [c] p) := (pySplit_joinSep c p hp hpc).symm
    _ = pySplit [c] (joinSep [c] q) := by rw [h]
    _ = q := pySplit_joinSep c q hq hqc
  · simp only [hpar, ne_eq, not_false_eq_true, if_true,
      List.append_assoc] at h
    have h2 := List.append_cancel_left h
    have h3 := List.append_cancel_left h2
    calc p = pySplit [c] (joinSep [c] p) := (pySplit_joinSep c p hp hpc).symm
    _ = pySplit [c] (joinSep [c] q) := by rw [h3]
    _ = q := pySplit_joinSep c q hq hqc

theorem akeys_encodePaths (c : Char) (parent : Str)
    (L : List (List Str × JVal)) :
    akeys (encodePaths [c] parent L) =
      (L.map Prod.fst).map (encodeKey [c] parent) := by
  simp [akeys, encodePaths, List.map_map]

theorem encodePaths_keys_nodup (c : Char) (parent : Str)
    (L : List (List Str × JVal)) (hnd : (L.map Prod.fst).Nodup)
    (hne : ∀ pl ∈ L, pl.1 ≠ [])
    (hcf : ∀ pl ∈ L, ∀ comp ∈ pl.1, c ∉ comp) :
    (akeys (encodePaths [c] parent L)).Nodup := by
  rw [akeys_encodePaths]
  refine List.Nodup.map_on ?_ hnd
  intro x hx y hy hxy
  obtain ⟨plx, hplx, rfl⟩ := List.mem_map.mp hx
  obtain ⟨ply, hply, rfl⟩ := List.mem_map.mp hy
  exact encodeKey_inj c parent (hne plx hplx) (hne ply hply)
    (fun comp hcm => hcf plx hplx comp hcm)
    (fun comp hcm => hcf ply hply comp hcm) hxy

theorem aupdate_nil_of_nodup {κ α : Type} [DecidableEq κ]
    (l : List (κ × α)) (h : (akeys l).Nodup) : aupdate [] l = l := by
  have := aupdate_fresh_nodup l [] (fun k _ => rfl) h
  simpa using this

theorem encodePaths_cons_key (sep parent k : Str) (hk : k ≠ [])
    (L : List (List Str × JVal)) (hne : ∀ pl ∈ L, pl.1 ≠ []) :
    encodePaths sep parent (L.map fun pv => (k :: pv.1, pv.2)) =
      encodePaths sep (encodeKey sep parent [k]) L := by
  rw [encodePaths, encodePaths, List.map_map]
  refine List.map_congr_left ?_
  intro pv hpv
  simp only [Function.comp]
  rw [encodeKey_chain sep parent k pv.1 hk (hne pv hpv)]

theorem encodePaths_append (sep parent : Str)
    (A B : List (List Str × JVal)) :
    encodePaths sep parent (A ++ B) =
      encodePaths sep parent A ++ encodePaths sep parent B := by
  rw [encodePaths, encodePaths, encodePaths, List.map_append]

theorem encodeKey_single_ne (sep parent k : Str) (hk : k ≠ []) :
    encodeKey sep parent [k] ≠ [] := by
  rw [encodeKey_single]
  rcases eq_or_ne parent [] with h | h
  · simpa [h] using hk
  · simp only [h, ne_eq, not_false_eq_true, if_true]
    intro habs
    rcases List.append_eq_nil.mp habs with ⟨h1, _⟩
    rcases List.append_eq_nil.mp h1 with ⟨h2, _⟩
    exact h h2

mutual
theorem flattenItems_paths (c : Char) (hc : ¬ c.isDigit = true) :
    ∀ (kvs : List (Str × JVal)) (parent : Str) (fl : List (Str × JVal)),
      tightObj [c] kvs = true →
      flattenItems [c] [] kvs parent fl =
        aupdate fl (encodePaths [c] parent (pathsObj kvs))
  | [], parent, fl, _ => by
    rw [flattenItems_nil_eq,
      show pathsObj [] = ([] : List (List Str × JVal)) from by simp [pathsObj]]
    rfl
  | (k, v) :: rest, parent, fl, ht => by
    obtain ⟨hk, hnk, hv, hr⟩ := tightObj_cons ht
    obtain ⟨hkne, _, _⟩ := goodKey_facts hk
    have hkey : (if parent ≠ [] then parent ++ [c] ++ k else k) =
        encodeKey [c] parent [k] := (encodeKey_single [c] parent k).symm
    have hsplit : pathsObj ((k, v) :: rest) =
        (pathsVal v).map (fun pv => (k :: pv.1, pv.2)) ++ pathsObj rest := by
      simp [pathsObj]
    rw [hsplit, encodePaths_append, aupdate_append]
    cases v with
    | scalar s =>
      rw [flattenItems_cons_scalar, hkey,
        flattenItems_paths c hc rest parent _ hr]
      rw [show encodePaths [c] parent
          ((pathsVal (JVal.scalar s)).map (fun pv => (k :: pv.1, pv.2))) =
          [(encodeKey [c] parent [k], JVal.scalar s)] from by
        simp [pathsVal, encodePaths]]
      rw [aupdate_single]
    | null => simp [tightVal] at hv
    | obj sub =>
      obtain ⟨hsne, hto⟩ := tightVal_obj hv
      obtain ⟨Hs, Nds, _⟩ := tpaths_obj c hc sub hto
      have hnep : ∀ pl ∈ pathsObj sub, pl.1 ≠ [] := by
        intro pl hpl
        obtain ⟨⟨k3, t3, hp3, _, _⟩, _⟩ := Hs pl hpl
        rw [hp3]
        exact List.cons_ne_nil _ _
      have hcf : ∀ pl ∈ pathsObj sub, ∀ comp ∈ pl.1, c ∉ comp :=
        fun pl hpl comp hcm => ((Hs pl hpl).2 comp hcm).2
      rw [flattenItems_cons_obj, hkey,
        flattenItems_paths c hc sub (encodeKey [c] parent [k]) [] hto,
        aupdate_nil_of_nodup _
          (encodePaths_keys_nodup c (encodeKey [c] parent [k]) _ Nds hnep hcf),
        flattenItems_paths c hc rest parent _ hr]
      rw [show pathsVal (JVal.obj sub) = pathsObj sub from by simp [pathsVal]]
      rw [encodePaths_cons_key [c] parent k hkne (pathsObj sub) hnep]
    | arr items =>
      obtain ⟨hane, hcase⟩ := tightVal_arr hv
      rcases hcase with hta | hsc
      · have hobj := tightArrObjs_all_isObj items hta
        obtain ⟨Ha, _, _⟩ := tpaths_arr c hc items 0 hta
        have hnep : ∀ pl ∈ pathsArr items 0, pl.1 ≠ [] := by
          intro pl hpl
          obtain ⟨⟨i3, t3, hp3, _⟩, _⟩ := Ha pl hpl
          rw [hp3]
          exact List.cons_ne_nil _ _
        rw [flattenItems_cons_arr, hobj]
        simp only [if_true]
        rw [hkey,
          flattenArrItems_paths c hc items 0 (encodeKey [c] parent [k]) fl
            hta (encodeKey_single_ne [c] parent k hkne),
          flattenItems_paths c hc rest parent _ hr]
        rw [show pathsVal (JVal.arr items) = pathsArr items 0 from by
          simp [pathsVal, hobj]]
        rw [encodePaths_cons_key [c] parent k hkne (pathsArr items 0) hnep]
      · have hobj := all_scalar_not_all_isObj hane hsc
        rw [flattenItems_cons_arr, hobj]
        simp only [Bool.false_eq_true, if_false]
        rw [hkey, flattenItems_paths c hc rest parent _ hr]
        rw [show encodePaths [c] parent
            ((pathsVal (JVal.arr items)).map (fun pv => (k :: pv.1, pv.2))) =
            [(encodeKey [c] parent [k], JVal.arr items)] from by
          simp [pathsVal, hobj, encodePaths]]
        rw [aupdate_single]

theorem flattenArrItems_paths (c : Char) (hc : ¬ c.isDigit = true) :
    ∀ (items : List JVal) (idx : Nat) (parent : Str)
      (fl : List (Str × JVal)),
      tightArrObjs [c] items = true → parent ≠ [] →
      flattenArrItems [c] [] items idx parent fl =
        aupdate fl (encodePaths [c] parent (pathsArr items idx))
  | [], idx, parent, fl, _, _ => by
    rw [flattenArrItems_nil_eq,
      show pathsArr [] idx = ([] : List (List Str × JVal)) from by
        simp [pathsArr]]
    rfl
  | .obj sub :: rest, idx, parent, fl, ht, hpar => by
    obtain ⟨hsne, hts, htr⟩ := tightArrObjs_cons_obj ht
    obtain ⟨Hs, Nds, _⟩ := tpaths_obj c hc sub hts
    have hnep : ∀ pl ∈ pathsObj sub, pl.1 ≠ [] := by
      intro pl hpl
      obtain ⟨⟨k3, t3, hp3, _, _⟩, _⟩ := Hs pl hpl
      rw [hp3]
      exact List.cons_ne_nil _ _
    have hcf : ∀ pl ∈ pathsObj sub, ∀ comp ∈ pl.1, c ∉ comp :=
      fun pl hpl comp hcm => ((Hs pl hpl).2 comp hcm).2
    have hkey : encodeKey [c] parent [natRepr idx] =
        parent ++ [c] ++ natRepr idx := by
      rw [encodeKey_single, if_pos hpar]
    have hsplit : pathsArr (JVal.obj sub :: rest) idx =
        (pathsObj sub).map (fun pv => (natRepr idx :: pv.1, pv.2)) ++
          pathsArr rest (idx + 1) := by
      simp [pathsArr]
    rw [hsplit, encodePaths_append, aupdate_append]
    rw [flattenArrItems_cons_obj,
      flattenItems_paths c hc sub (parent ++ [c] ++ natRepr idx) [] hts,
      aupdate_nil_of_nodup _
        (encodePaths_keys_nodup c (parent ++ [c] ++ natRepr idx) _ Nds hnep
          hcf),
      flattenArrItems_paths c hc rest (idx + 1) parent _ htr hpar]
    rw [encodePaths_cons_key [c] parent (natRepr idx) (natRepr_ne_nil idx)
      (pathsObj sub) hnep, hkey]
  | .scalar s :: rest, idx, parent, fl, ht, _ => by
    simp [tightArrObjs] at ht
  | .arr its :: rest, idx, parent, fl, ht, _ => by
    simp [tightArrObjs] at ht
  | .null :: rest, idx, parent, fl, ht, _ => by
    simp [tightArrObjs] at ht
end

theorem unflatten_fold_insertMany (c : Char) :
    ∀ (L : List (List Str × JVal)) (d0 : JVal),
      (∀ pl ∈ L, pl.1 ≠ []) → (∀ pl ∈ L, ∀ comp ∈ pl.1, c ∉ comp) →
      List.foldlM (fun dd kv => insertPath dd (pySplit [c] kv.1) kv.2) d0
          (encodePaths [c] [] L) =
        insertMany d0 L := by
  intro L
  induction L with
  | nil => intro d0 _ _; rfl
  | cons pl L ih =>
    intro d0 hne hcf
    rw [show encodePaths [c] [] (pl :: L) =
      (encodeKey [c] [] pl.1, pl.2) :: encodePaths [c] [] L from rfl]
    rw [List.foldlM_cons, insertMany_cons]
    rw [encodeKey_nil_parent]
    rw [pySplit_joinSep c pl.1 (hne pl (List.mem_cons_self pl L))
      (fun p hp => hcf pl (List.mem_cons_self pl L) p hp)]
    rcases h : insertPath d0 pl.1 pl.2 with _ | d1
    · rfl
    · show List.foldlM (fun dd kv => insertPath dd (pySplit [c] kv.1) kv.2)
          d1 (encodePaths [c] [] L) = insertMany d1 L
      exact ih d1 (fun q hq => hne q (List.mem_cons_of_mem pl hq))
        (fun q hq => hcf q (List.mem_cons_of_mem pl hq))

/-- Claim C10 (amended): for a dictionary whose keys at every depth are
nonempty, separator-free, not-all-digit strings, whose values are scalars,
nonempty dicts of the same shape, nonempty lists of such dicts, or nonempty
lists of scalars, and a single-character non-digit separator,
`unflatten_json` inverts `flatten_json`. -/
theorem c10_flatten_unflatten_roundtrip (c : Char) (d : List (Str × JVal))
    (hc : ¬ c.isDigit = true) (ht : tightObj [c] d = true) :
    unflatten_json (flatten_json d [] [c] []) [c] = some (JVal.obj d) := by
  obtain ⟨Hd, Ndd, _⟩ := tpaths_obj c hc d ht
  have hnep : ∀ pl ∈ pathsObj d, pl.1 ≠ [] := by
    intro pl hpl
    obtain ⟨⟨k3, t3, hp3, _, _⟩, _⟩ := Hd pl hpl
    rw [hp3]
    exact List.cons_ne_nil _ _
  have hcf : ∀ pl ∈ pathsObj d, ∀ comp ∈ pl.1, c ∉ comp :=
    fun pl hpl comp hcm => ((Hd pl hpl).2 comp hcm).2
  have hflat : flatten_json d [] [c] [] = encodePaths [c] [] (pathsObj d) := by
    rw [flatten_json, flattenItems_paths c hc d [] [] ht,
      aupdate_nil_of_nodup _ (encodePaths_keys_nodup c [] _ Ndd hnep hcf)]
  rw [hflat, unflatten_json, if_neg (by simp)]
  rw [unflatten_fold_insertMany c (pathsObj d) (JVal.obj []) hnep hcf]
  exact insertMany_obj c hc d [] ht (fun q _ => rfl)

theorem c10_flatten_unflatten_roundtrip_witness :
    (¬ '.'.isDigit = true) ∧
    tightObj ['.']
      [(['a'], JVal.scalar ['v']),
       (['b'], JVal.obj [(['k'], JVal.scalar ['w'])]),
       (['l'], JVal.arr [JVal.obj [(['x'], JVal.scalar ['1'])],
                         JVal.obj [(['x'], JVal.scalar ['2'])]]),
       (['s'], JVal.arr [JVal.scalar ['q']])] = true ∧
    unflatten_json
        (flatten_json
          [(['a'], JVal.scalar ['v']),
           (['b'], JVal.obj [(['k'], JVal.scalar ['w'])]),
           (['l'], JVal.arr [JVal.obj [(['x'], JVal.scalar ['1'])],
                             JVal.obj [(['x'], JVal.scalar ['2'])]]),
           (['s'], JVal.arr [JVal.scalar ['q']])] [] ['.'] []) ['.'] =
      some (JVal.obj
        [(['a'], JVal.scalar ['v']),
         (['b'], JVal.obj [(['k'], JVal.scalar ['w'])]),
         (['l'], JVal.arr [JVal.obj [(['x'], JVal.scalar ['1'])],
                           JVal.obj [(['x'], JVal.scalar ['2'])]]),
         (['s'], JVal.arr [JVal.scalar ['q']])]) :=
  ⟨by decide, by decide,
    c10_flatten_unflatten_roundtrip '.'
      [(['a'], JVal.scalar ['v']),
       (['b'], JVal.obj [(['k'], JVal.scalar ['w'])]),
       (['l'], JVal.arr [JVal.obj [(['x'], JVal.scalar ['1'])],
                         JVal.obj [(['x'], JVal.scalar ['2'])]]),
       (['s'], JVal.arr [JVal.scalar ['q']])] (by decide) (by decide)⟩
